import Mathlib

/-!
Shallow embedding of the drag-and-drop kanban board component in
`src/TaskBoard.tsx`.

The component state (`taskLists`), the drag handler (`onDragEnd`), the
fetch/reconcile function (`fetchTaskLists`), the realtime subscriptions and
the creation helpers (`addTask`, `addTaskList`) are translated as pure
functions.  The supabase calls the handlers issue become an explicit list of
`Write` instructions, and the persisted `task_lists` / `tasks` tables become
a `DB` value to which those instructions are applied, so that properties of
the persisted positions can be stated.

JavaScript `Array.prototype.splice` is modelled exactly, including its
behaviour on out-of-range indices: removing at an index past the end removes
nothing (the destructured element is `undefined`, modelled by `none`), and
inserting clamps the index to the array length.  A handler run that would
dereference `undefined` (a TypeError at runtime) is modelled by the handler
returning `none`.
-/

namespace TaskBoardModel

/-- In-memory task, from `interface Task` in `src/TaskBoard.tsx`. -/
structure Task where
  id : String
  content : String
  list_id : String
deriving Repr, DecidableEq

/-- In-memory task list, from `interface TaskList` in `src/TaskBoard.tsx`. -/
structure TaskList where
  id : String
  title : String
  tasks : List Task
deriving Repr, DecidableEq

/-- The component state `taskLists`: the board is the ordered list of task
lists. -/
abbrev Board := List TaskList

/-- One endpoint of a drag gesture, as delivered by the drag library:
a droppable container id and an index inside it. -/
structure DragLoc where
  droppableId : String
  index : Nat
deriving Repr, DecidableEq

/-- The drag-completion event `result` received by `onDragEnd`.  `type` is a
plain string (the code compares it with `"list"` and `"task"`);
`destination` is absent when the item was dropped outside any target. -/
structure DragResult where
  type : String
  source : DragLoc
  destination : Option DragLoc
deriving Repr, DecidableEq

/-- One supabase update issued by the drag handler: either
`task_lists.update({position}).eq("id", id)` or
`tasks.update({position, list_id}).eq("id", id)`. -/
inductive Write where
  | listPos (id : String) (position : Nat)
  | taskPos (id : String) (position : Nat) (list_id : String)
deriving Repr, DecidableEq

/-- Persisted row of the `task_lists` table (spec section 6 row shape). -/
structure ListRow where
  id : String
  title : String
  position : Nat
deriving Repr, DecidableEq

/-- Persisted row of the `tasks` table (spec section 6 row shape). -/
structure TaskRow where
  id : String
  content : String
  list_id : String
  position : Nat
deriving Repr, DecidableEq

/-- The persisted store: the two tables. -/
structure DB where
  task_lists : List ListRow
  tasks : List TaskRow
deriving Repr, DecidableEq

/-- Apply one update to the store: `.update(...).eq("id", id)` updates every
row whose `id` matches. -/
def applyWrite (db : DB) : Write → DB
  | .listPos i p =>
      { db with task_lists :=
          db.task_lists.map fun r => if r.id = i then { r with position := p } else r }
  | .taskPos i p lid =>
      { db with tasks :=
          db.tasks.map fun r =>
            if r.id = i then { r with position := p, list_id := lid } else r }

/-- Apply a list of updates in order. -/
def applyWrites (db : DB) (ws : List Write) : DB :=
  ws.foldl applyWrite db

/-- JS `arr.splice(i, 1)`: the removed element (if any) together with the
remaining array.  For an out-of-range index nothing is removed and the
destructured `const [moved] = ...` is `undefined`, modelled by `none`. -/
def spliceRemove (xs : List α) (i : Nat) : Option α × List α :=
  if h : i < xs.length then (some (xs.get ⟨i, h⟩), xs.take i ++ xs.drop (i + 1))
  else (none, xs)

/-- JS `arr.splice(i, 0, x)`: insertion, with the index clamped to the array
length. -/
def spliceInsert (xs : List α) (i : Nat) (x : α) : List α :=
  xs.take i ++ x :: xs.drop i

/-- List branch of `onDragEnd` (`result.type === "list"`): splice the moved
list out at `source.index`, splice it back in at `destination.index`, then
emit one `position` update per list of the new sequence, in order.  `none`
models the run crashing: with an out-of-range `source.index`, `movedList` is
`undefined`, the splice-in still inserts it, and the write loop then reads
`.id` of `undefined` (a TypeError); the model drops the writes issued before
the crash. -/
def onDragEndList (board : Board) (srcIdx dstIdx : Nat) : Option (Board × List Write) :=
  match spliceRemove board srcIdx with
  | (some movedList, rest) =>
      let updatedLists := spliceInsert rest dstIdx movedList
      some (updatedLists, updatedLists.enum.map fun p => Write.listPos p.2.id p.1)
  | (none, _) => none

/-- Functional rendering of the mutation `movedTask.list_id = destList.id`. -/
def setTaskListId (t : Task) (lid : String) : Task :=
  { t with list_id := lid }

/-- Functional rendering of an in-place update of a list's `tasks` array. -/
def setTasks (l : TaskList) (ts : List Task) : TaskList :=
  { l with tasks := ts }

/-- Replace the first list of the board whose id is `targetId`.  This models
the in-place mutation of the object returned by `Array.prototype.find` in the
task branch of `onDragEnd`: the shallow copy `[...taskLists]` shares the list
objects, so mutating the found list rewrites that position of the board. -/
def setFirstById (board : Board) (targetId : String) (replacement : TaskList) : Board :=
  match board with
  | [] => []
  | l :: rest =>
      if l.id = targetId then replacement :: rest
      else l :: setFirstById rest targetId replacement

/-- Task branch of `onDragEnd` (`result.type === "task"`): locate the source
and destination lists by droppable id (silent no-op when either is missing),
splice the moved task out of the source list, splice it into the destination
list, set its `list_id` to the destination list id, then emit one
`{position, list_id}` update per task of the new destination sequence, in
order.  When source and destination are the same list the two splices act on
the same underlying array, which the same-id branch reproduces.  `none`
models the run crashing: with an out-of-range `source.index`, `movedTask` is
`undefined` and `movedTask.list_id = ...` throws a TypeError. -/
def onDragEndTask (board : Board) (source dest : DragLoc) : Option (Board × List Write) :=
  match board.find? (fun l => l.id == source.droppableId),
        board.find? (fun l => l.id == dest.droppableId) with
  | some sourceList, some destList =>
      match spliceRemove sourceList.tasks source.index with
      | (some movedTask0, srcTasks) =>
          let movedTask := setTaskListId movedTask0 destList.id
          if sourceList.id = destList.id then
            let newTasks := spliceInsert srcTasks dest.index movedTask
            some (setFirstById board sourceList.id (setTasks sourceList newTasks),
                  newTasks.enum.map fun p => Write.taskPos p.2.id p.1 destList.id)
          else
            let dstTasks := spliceInsert destList.tasks dest.index movedTask
            some (setFirstById
                    (setFirstById board sourceList.id (setTasks sourceList srcTasks))
                    destList.id (setTasks destList dstTasks),
                  dstTasks.enum.map fun p => Write.taskPos p.2.id p.1 destList.id)
      | (none, _) => none
  | _, _ => some (board, [])

/-- The drag-completion handler `onDragEnd`.  An event with no destination
returns immediately; an event whose `type` is neither `"list"` nor `"task"`
matches no branch and does nothing. -/
def onDragEnd (board : Board) (result : DragResult) : Option (Board × List Write) :=
  match result.destination with
  | none => some (board, [])
  | some dest =>
      if result.type = "list" then onDragEndList board result.source.index dest.index
      else if result.type = "task" then onDragEndTask board result.source dest
      else some (board, [])

/-- Result of the supabase select inside `fetchTaskLists`: `data` may be null
(`none`), `error` may be set. -/
structure FetchResult where
  data : Option Board
  error : Bool
deriving Repr, DecidableEq

/-- State transition performed by `fetchTaskLists`:
`if (!error) setTaskLists(lists || [])`.  On a fetch error the previous board
is kept; otherwise the state is replaced by the fetched snapshot (or `[]`
when the data is null). -/
def fetchTaskLists (prev : Board) (r : FetchResult) : Board :=
  if r.error then prev else r.data.getD []

/-- Callback registered on the realtime channel, identified by name.  The
component registers only its fetch function. -/
inductive Callback where
  | fetchTaskLists
deriving Repr, DecidableEq

/-- The `postgres_changes` subscriptions made in the mount effect, as
(event filter, table, registered callback) triples, in registration order. -/
def channelSubscriptions : List (String × String × Callback) :=
  [("*", "tasks", Callback.fetchTaskLists), ("*", "task_lists", Callback.fetchTaskLists)]

/-- Payload of a `tasks` insert; `position` is optional in the payload
(the persisted row shape has a position column, the client may omit it). -/
structure TaskInsert where
  id : String
  content : String
  list_id : String
  position : Option Nat
deriving Repr, DecidableEq

/-- Payload of a `task_lists` insert. -/
structure ListInsert where
  id : String
  title : String
  position : Option Nat
deriving Repr, DecidableEq

/-- The `addTask` helper: prompt for content (`none` models a cancelled
prompt), abort on empty input, otherwise insert `{ id, content, list_id }` —
no position field. -/
def addTask (list_id : String) (promptResult : Option String) (newId : String) :
    List TaskInsert :=
  match promptResult with
  | none => []
  | some content =>
      if content = "" then []
      else [{ id := newId, content := content, list_id := list_id, position := none }]

/-- The `addTaskList` helper: prompt for a title, abort on empty input,
otherwise insert `{ id, title, position: taskLists.length }`. -/
def addTaskList (board : Board) (promptResult : Option String) (newId : String) :
    List ListInsert :=
  match promptResult with
  | none => []
  | some title =>
      if title = "" then []
      else [{ id := newId, title := title, position := some board.length }]

/-- Persisted `task_lists` rows matching a board: one row per list, with
`position` equal to the list's index. -/
def listRowsOf (board : Board) : List ListRow :=
  board.enum.map fun p => { id := p.2.id, title := p.2.title, position := p.1 }

/-- Persisted `tasks` rows matching one list: one row per task, with
`list_id` the owning list's id and `position` the task's index. -/
def taskRowsOf (l : TaskList) : List TaskRow :=
  l.tasks.enum.map fun p =>
    { id := p.2.id, content := p.2.content, list_id := l.id, position := p.1 }

/-- Persisted `tasks` rows matching a whole board. -/
def boardTaskRows (board : Board) : List TaskRow :=
  board.flatMap taskRowsOf

/-- All task ids of the board, in order. -/
def boardTaskIds (board : Board) : List String :=
  board.flatMap fun l => l.tasks.map Task.id

/-- All list ids of the board, in order. -/
def listIds (board : Board) : List String :=
  board.map TaskList.id

/-- The persisted store corresponds to the in-memory board: each table holds
exactly the rows the board prescribes (in any order), positions are the
in-memory indices, and ids are unique. -/
structure Corresponds (board : Board) (db : DB) : Prop where
  lists_perm : List.Perm db.task_lists (listRowsOf board)
  tasks_perm : List.Perm db.tasks (boardTaskRows board)
  listIds_nodup : (listIds board).Nodup
  taskIds_nodup : (boardTaskIds board).Nodup

/-- In-memory back-references are consistent: every task's `list_id` is the
id of the list holding it (spec section 3 invariant). -/
def ListIdConsistent (board : Board) : Prop :=
  ∀ l ∈ board, ∀ t ∈ l.tasks, t.list_id = l.id

/-- A collection of positions is dense: it is exactly `{0, …, n-1}`, with no
gaps or duplicates. -/
def Dense (ps : List Nat) : Prop :=
  List.Perm ps (List.range ps.length)

/-- Persisted positions of the tasks of one list. -/
def taskPositions (db : DB) (lid : String) : List Nat :=
  (db.tasks.filter fun r => r.list_id == lid).map TaskRow.position

/-- Persisted positions of the lists of the board. -/
def listPositions (db : DB) : List Nat :=
  db.task_lists.map ListRow.position

/-! Basic facts about the splice model. -/

theorem spliceRemove_of_lt (xs : List α) (i : Nat) (h : i < xs.length) :
    spliceRemove xs i = (some (xs.get ⟨i, h⟩), xs.eraseIdx i) := by
  simp [spliceRemove, h, List.eraseIdx_eq_take_drop_succ]

theorem spliceRemove_of_ge (xs : List α) (i : Nat) (h : xs.length ≤ i) :
    spliceRemove xs i = (none, xs) := by
  simp [spliceRemove, Nat.not_lt.mpr h]

theorem spliceInsert_eq_insertIdx (xs : List α) (i : Nat) (x : α) (h : i ≤ xs.length) :
    spliceInsert xs i x = List.insertIdx i x xs := by
  induction xs generalizing i with
  | nil =>
      obtain rfl : i = 0 := Nat.le_zero.mp h
      rfl
  | cons a as ih =>
      cases i with
      | zero => rfl
      | succ n =>
          simp only [spliceInsert, List.take_succ_cons, List.drop_succ_cons,
            List.insertIdx_succ_cons, List.cons_append]
          exact congrArg (a :: ·) (ih n (Nat.le_of_succ_le_succ h))

theorem spliceInsert_perm (xs : List α) (i : Nat) (x : α) :
    List.Perm (spliceInsert xs i x) (x :: xs) := by
  have h := @List.perm_middle _ x (xs.take i) (xs.drop i)
  simpa [spliceInsert, List.take_append_drop] using h

theorem map_spliceInsert (f : α → β) (xs : List α) (i : Nat) (x : α) :
    (spliceInsert xs i x).map f = spliceInsert (xs.map f) i (f x) := by
  simp [spliceInsert, List.map_take, List.map_drop]

theorem perm_get_cons_eraseIdx (xs : List α) (i : Nat) (h : i < xs.length) :
    List.Perm xs (xs.get ⟨i, h⟩ :: xs.eraseIdx i) := by
  rw [List.eraseIdx_eq_take_drop_succ]
  conv_lhs => rw [← List.take_append_drop i xs]
  rw [List.drop_eq_getElem_cons h]
  exact List.perm_middle

/-! C8: drop with no destination. -/

/-- C8: for every board and every drag-completion event carrying no
destination, the drag handler is a no-op: the board is unchanged and zero
writes are emitted. -/
theorem c8_no_destination_noop (board : Board) (result : DragResult)
    (h : result.destination = none) :
    onDragEnd board result = some (board, []) := by
  unfold onDragEnd
  rw [h]

theorem c8_witness :
    (DragResult.mk "task" ⟨"A", 0⟩ none).destination = none ∧
    onDragEnd [⟨"A", "todo", []⟩] (DragResult.mk "task" ⟨"A", 0⟩ none) =
      some ([⟨"A", "todo", []⟩], []) :=
  ⟨rfl, c8_no_destination_noop [⟨"A", "todo", []⟩] (DragResult.mk "task" ⟨"A", 0⟩ none) rfl⟩

/-! C4: stale task drag targets. -/

/-- C4: a task-kind drag event whose source or destination container id
matches no existing list is a silent no-op: the board is unchanged and zero
writes are emitted. -/
theorem c4_missing_list_noop (board : Board) (source dest : DragLoc)
    (h : board.find? (fun l => l.id == source.droppableId) = none ∨
         board.find? (fun l => l.id == dest.droppableId) = none) :
    onDragEndTask board source dest = some (board, []) := by
  unfold onDragEndTask
  rcases h with h | h
  · rw [h]
  · rw [h]
    cases board.find? (fun l => l.id == source.droppableId) <;> rfl

theorem c4_witness :
    ([⟨"A", "todo", [⟨"t0", "x", "A"⟩]⟩] : Board).find?
        (fun l => l.id == ("Z" : String)) = none ∧
    onDragEndTask [⟨"A", "todo", [⟨"t0", "x", "A"⟩]⟩] ⟨"A", 0⟩ ⟨"Z", 0⟩ =
      some ([⟨"A", "todo", [⟨"t0", "x", "A"⟩]⟩], []) :=
  ⟨by decide, c4_missing_list_noop _ ⟨"A", 0⟩ ⟨"Z", 0⟩ (Or.inr (by decide))⟩

/-! C7: fetch failure keeps the previous snapshot. -/

/-- C7: when the board fetch returns an error result, the previous board
snapshot is left in place; the state is not replaced with a partial, empty,
or error value. -/
theorem c7_fetch_error_keeps_board (prev : Board) (r : FetchResult)
    (h : r.error = true) : fetchTaskLists prev r = prev := by
  simp [fetchTaskLists, h]

theorem c7_witness :
    ({ data := none, error := true } : FetchResult).error = true ∧
    fetchTaskLists [⟨"L", "t", []⟩] { data := none, error := true } = [⟨"L", "t", []⟩] :=
  ⟨rfl, c7_fetch_error_keeps_board [⟨"L", "t", []⟩] { data := none, error := true } rfl⟩

/-! C6: reconciler wiring. -/

/-- C6: the same fetch callback is registered (with a wildcard event filter)
for both the `tasks` and the `task_lists` resources, it is the only callback
registered, and on a successful fetch it replaces the local state with the
fetched snapshot. -/
theorem c6_reconciler_wiring :
    ("*", "tasks", Callback.fetchTaskLists) ∈ channelSubscriptions ∧
    ("*", "task_lists", Callback.fetchTaskLists) ∈ channelSubscriptions ∧
    (∀ s ∈ channelSubscriptions, s.1 = "*" ∧ s.2.2 = Callback.fetchTaskLists) ∧
    (∀ (prev snapshot : Board),
      fetchTaskLists prev { data := some snapshot, error := false } = snapshot) := by
  refine ⟨by simp [channelSubscriptions], by simp [channelSubscriptions], ?_, ?_⟩
  · intro s hs
    simp only [channelSubscriptions, List.mem_cons, List.mem_singleton,
      List.not_mem_nil, or_false] at hs
    rcases hs with rfl | rfl <;> exact ⟨rfl, rfl⟩
  · intro prev snapshot
    simp [fetchTaskLists]

theorem c6_witness :
    fetchTaskLists [] { data := some [⟨"L", "t", []⟩], error := false } = [⟨"L", "t", []⟩] ∧
    ("*", "tasks", Callback.fetchTaskLists) ∈ channelSubscriptions :=
  ⟨c6_reconciler_wiring.2.2.2 [] [⟨"L", "t", []⟩], c6_reconciler_wiring.1⟩

/-! C9: creation payload shapes. -/

/-- C9: task creation with non-empty content emits exactly one insert whose
row carries only an id, the content and the owning list id — its position
field is absent — whereas list creation emits an insert whose position is the
current number of lists. -/
theorem c9_insert_shapes (board : Board) (lid content title tid nid : String)
    (hcontent : content ≠ "") (htitle : title ≠ "") :
    addTask lid (some content) tid =
      [{ id := tid, content := content, list_id := lid, position := none }] ∧
    addTaskList board (some title) nid =
      [{ id := nid, title := title, position := some board.length }] := by
  constructor
  · simp [addTask, hcontent]
  · simp [addTaskList, htitle]

theorem c9_witness :
    ("buy milk" : String) ≠ "" ∧ ("todo" : String) ≠ "" ∧
    addTask "A" (some "buy milk") "t9" =
      [{ id := "t9", content := "buy milk", list_id := "A", position := none }] ∧
    addTaskList [⟨"A", "a", []⟩, ⟨"B", "b", []⟩] (some "todo") "L9" =
      [{ id := "L9", title := "todo", position := some 2 }] := by
  refine ⟨by decide, by decide, ?_, ?_⟩
  · exact (c9_insert_shapes [] "A" "buy milk" "todo" "t9" "L9" (by decide) (by decide)).1
  · exact (c9_insert_shapes [⟨"A", "a", []⟩, ⟨"B", "b", []⟩] "A" "buy milk" "todo" "t9" "L9"
      (by decide) (by decide)).2

/-! Facts about `find?` and `setFirstById`. -/

theorem find?_id_eq (board : Board) (sid : String) (w : TaskList)
    (h : board.find? (fun l => l.id == sid) = some w) : w.id = sid := by
  have hp := List.find?_some h
  simpa using hp

theorem find?_setFirstById_self (board : Board) (tid : String) (v w : TaskList)
    (hfound : board.find? (fun l => l.id == tid) = some w) (hv : v.id = tid) :
    (setFirstById board tid v).find? (fun l => l.id == tid) = some v := by
  induction board with
  | nil => simp at hfound
  | cons l rest ih =>
      by_cases h : l.id = tid
      · simp only [setFirstById, if_pos h]
        exact List.find?_cons_of_pos _ (by simp [hv])
      · rw [List.find?_cons_of_neg _ (by simp [h])] at hfound
        simp only [setFirstById, if_neg h]
        rw [List.find?_cons_of_neg _ (by simp [h])]
        exact ih hfound

theorem find?_setFirstById_ne (board : Board) (tid oid : String) (v : TaskList)
    (hv : v.id = tid) (hne : oid ≠ tid) :
    (setFirstById board tid v).find? (fun l => l.id == oid) =
      board.find? (fun l => l.id == oid) := by
  induction board with
  | nil => rfl
  | cons l rest ih =>
      by_cases h : l.id = tid
      · simp only [setFirstById, if_pos h]
        rw [List.find?_cons_of_neg _ (by simp [hv]; exact fun e => hne e.symm),
          List.find?_cons_of_neg _ (by simp [h]; exact fun e => hne e.symm)]
      · simp only [setFirstById, if_neg h]
        by_cases h2 : l.id = oid
        · rw [List.find?_cons_of_pos _ (by simp [h2]), List.find?_cons_of_pos _ (by simp [h2])]
        · rw [List.find?_cons_of_neg _ (by simp [h2]), List.find?_cons_of_neg _ (by simp [h2])]
          exact ih

theorem setFirstById_found_self (board : Board) (tid : String) (w : TaskList)
    (hfound : board.find? (fun l => l.id == tid) = some w) :
    setFirstById board tid w = board := by
  induction board with
  | nil => rfl
  | cons l rest ih =>
      by_cases h : l.id = tid
      · rw [List.find?_cons_of_pos _ (by simp [h])] at hfound
        obtain rfl := Option.some.inj hfound
        simp only [setFirstById, if_pos h]
      · rw [List.find?_cons_of_neg _ (by simp [h])] at hfound
        simp only [setFirstById, if_neg h]
        rw [ih hfound]

/-! Computation lemmas for the two branches of `onDragEnd`. -/

theorem onDragEndList_eq (board : Board) (srcIdx dstIdx : Nat)
    (hsi : srcIdx < board.length) :
    onDragEndList board srcIdx dstIdx =
      some (spliceInsert (board.eraseIdx srcIdx) dstIdx (board.get ⟨srcIdx, hsi⟩),
        (spliceInsert (board.eraseIdx srcIdx) dstIdx (board.get ⟨srcIdx, hsi⟩)).enum.map
          fun p => Write.listPos p.2.id p.1) := by
  unfold onDragEndList
  rw [spliceRemove_of_lt _ _ hsi]

theorem onDragEndList_eq_none (board : Board) (srcIdx dstIdx : Nat)
    (hsi : board.length ≤ srcIdx) :
    onDragEndList board srcIdx dstIdx = none := by
  unfold onDragEndList
  rw [spliceRemove_of_ge _ _ hsi]

theorem onDragEndTask_eq_cross (board : Board) (source dest : DragLoc)
    (sourceList destList : TaskList)
    (hs : board.find? (fun l => l.id == source.droppableId) = some sourceList)
    (hd : board.find? (fun l => l.id == dest.droppableId) = some destList)
    (hne : sourceList.id ≠ destList.id)
    (hsi : source.index < sourceList.tasks.length) :
    onDragEndTask board source dest =
      some (setFirstById
              (setFirstById board sourceList.id
                (setTasks sourceList (sourceList.tasks.eraseIdx source.index)))
              destList.id
              (setTasks destList
                (spliceInsert destList.tasks dest.index
                  (setTaskListId (sourceList.tasks.get ⟨source.index, hsi⟩) destList.id))),
            (spliceInsert destList.tasks dest.index
                (setTaskListId (sourceList.tasks.get ⟨source.index, hsi⟩) destList.id)).enum.map
              fun p => Write.taskPos p.2.id p.1 destList.id) := by
  unfold onDragEndTask
  rw [hs, hd]
  dsimp only
  rw [spliceRemove_of_lt _ _ hsi]
  dsimp only
  rw [if_neg hne]

theorem onDragEndTask_eq_same (board : Board) (source dest : DragLoc)
    (sourceList destList : TaskList)
    (hs : board.find? (fun l => l.id == source.droppableId) = some sourceList)
    (hd : board.find? (fun l => l.id == dest.droppableId) = some destList)
    (hid : sourceList.id = destList.id)
    (hsi : source.index < sourceList.tasks.length) :
    onDragEndTask board source dest =
      some (setFirstById board sourceList.id
              (setTasks sourceList
                (spliceInsert (sourceList.tasks.eraseIdx source.index) dest.index
                  (setTaskListId (sourceList.tasks.get ⟨source.index, hsi⟩) destList.id))),
            (spliceInsert (sourceList.tasks.eraseIdx source.index) dest.index
                (setTaskListId (sourceList.tasks.get ⟨source.index, hsi⟩) destList.id)).enum.map
              fun p => Write.taskPos p.2.id p.1 destList.id) := by
  unfold onDragEndTask
  rw [hs, hd]
  dsimp only
  rw [spliceRemove_of_lt _ _ hsi]
  dsimp only
  rw [if_pos hid]

theorem onDragEndTask_eq_none (board : Board) (source dest : DragLoc)
    (sourceList destList : TaskList)
    (hs : board.find? (fun l => l.id == source.droppableId) = some sourceList)
    (hd : board.find? (fun l => l.id == dest.droppableId) = some destList)
    (hsi : sourceList.tasks.length ≤ source.index) :
    onDragEndTask board source dest = none := by
  unfold onDragEndTask
  rw [hs, hd]
  dsimp only
  rw [spliceRemove_of_ge _ _ hsi]

/-! C1: task reorder semantics. -/

/-- C1: for every task-kind drag event whose source and destination ids name
existing lists and whose indices are in range, the task-reorder operation
removes the task at `source.index` from the source list's sequence and
inserts it at `destination.index` into the destination list's sequence, and
emits one `{position, list_id}` write per task of the new destination
sequence with positions `0..k-1` in order.  When the two lists differ the
moved task's list-reference is set to the destination list's id; when they
coincide the two splices act on the same sequence (splice-out then
splice-in), and the task count of the list is preserved. -/
theorem c1_task_reorder (board : Board) (source dest : DragLoc)
    (sourceList destList : TaskList)
    (hs : board.find? (fun l => l.id == source.droppableId) = some sourceList)
    (hd : board.find? (fun l => l.id == dest.droppableId) = some destList)
    (hsi : source.index < sourceList.tasks.length) :
    (sourceList.id ≠ destList.id → dest.index ≤ destList.tasks.length →
      ∃ newBoard,
        onDragEndTask board source dest =
          some (newBoard,
            (List.insertIdx dest.index
                (setTaskListId (sourceList.tasks.get ⟨source.index, hsi⟩) destList.id)
                destList.tasks).enum.map fun p => Write.taskPos p.2.id p.1 destList.id) ∧
        newBoard.find? (fun l => l.id == source.droppableId) =
          some (setTasks sourceList (sourceList.tasks.eraseIdx source.index)) ∧
        newBoard.find? (fun l => l.id == dest.droppableId) =
          some (setTasks destList
            (List.insertIdx dest.index
              (setTaskListId (sourceList.tasks.get ⟨source.index, hsi⟩) destList.id)
              destList.tasks)) ∧
        (setTaskListId (sourceList.tasks.get ⟨source.index, hsi⟩) destList.id).list_id =
          destList.id ∧
        (sourceList.tasks.eraseIdx source.index).length + 1 = sourceList.tasks.length ∧
        (List.insertIdx dest.index
            (setTaskListId (sourceList.tasks.get ⟨source.index, hsi⟩) destList.id)
            destList.tasks)[dest.index]? =
          some (setTaskListId (sourceList.tasks.get ⟨source.index, hsi⟩) destList.id)) ∧
    (sourceList.id = destList.id → dest.index ≤ sourceList.tasks.length - 1 →
      ∃ newBoard,
        onDragEndTask board source dest =
          some (newBoard,
            (List.insertIdx dest.index
                (setTaskListId (sourceList.tasks.get ⟨source.index, hsi⟩) destList.id)
                (sourceList.tasks.eraseIdx source.index)).enum.map
              fun p => Write.taskPos p.2.id p.1 destList.id) ∧
        newBoard.find? (fun l => l.id == source.droppableId) =
          some (setTasks sourceList
            (List.insertIdx dest.index
              (setTaskListId (sourceList.tasks.get ⟨source.index, hsi⟩) destList.id)
              (sourceList.tasks.eraseIdx source.index))) ∧
        (List.insertIdx dest.index
            (setTaskListId (sourceList.tasks.get ⟨source.index, hsi⟩) destList.id)
            (sourceList.tasks.eraseIdx source.index)).length =
          sourceList.tasks.length ∧
        (List.insertIdx dest.index
            (setTaskListId (sourceList.tasks.get ⟨source.index, hsi⟩) destList.id)
            (sourceList.tasks.eraseIdx source.index))[dest.index]? =
          some (setTaskListId (sourceList.tasks.get ⟨source.index, hsi⟩) destList.id)) := by
  have hsid : sourceList.id = source.droppableId := find?_id_eq _ _ _ hs
  have hdid : destList.id = dest.droppableId := find?_id_eq _ _ _ hd
  constructor
  · intro hne hdi
    have hins := spliceInsert_eq_insertIdx destList.tasks dest.index
      (setTaskListId (sourceList.tasks.get ⟨source.index, hsi⟩) destList.id) hdi
    refine ⟨setFirstById
        (setFirstById board sourceList.id
          (setTasks sourceList (sourceList.tasks.eraseIdx source.index)))
        destList.id
        (setTasks destList
          (List.insertIdx dest.index
            (setTaskListId (sourceList.tasks.get ⟨source.index, hsi⟩) destList.id)
            destList.tasks)), ?_, ?_, ?_, rfl, ?_, ?_⟩
    · rw [onDragEndTask_eq_cross board source dest sourceList destList hs hd hne hsi, hins]
    · rw [← hsid]
      rw [find?_setFirstById_ne _ destList.id sourceList.id
        (setTasks destList
          (List.insertIdx dest.index
            (setTaskListId (sourceList.tasks.get ⟨source.index, hsi⟩) destList.id)
            destList.tasks)) rfl hne]
      exact find?_setFirstById_self board sourceList.id
        (setTasks sourceList (sourceList.tasks.eraseIdx source.index)) sourceList
        (hsid ▸ hs) rfl
    · rw [← hdid]
      refine find?_setFirstById_self _ _ _ destList ?_ rfl
      rw [find?_setFirstById_ne _ sourceList.id destList.id
        (setTasks sourceList (sourceList.tasks.eraseIdx source.index)) rfl (Ne.symm hne)]
      exact hdid ▸ hd
    · have := List.length_eraseIdx_add_one hsi
      omega
    · have hlen : dest.index <
          (List.insertIdx dest.index
            (setTaskListId (sourceList.tasks.get ⟨source.index, hsi⟩) destList.id)
            destList.tasks).length := by
        rw [List.length_insertIdx _ _ hdi]
        omega
      rw [List.getElem?_eq_getElem hlen]
      exact congrArg some (List.getElem_insertIdx_self _ _ _ hdi)
  · intro hideq hdi
    have hfind' : board.find? (fun l => l.id == sourceList.id) = some sourceList := by
      rw [hsid]
      exact hs
    have hErase : dest.index ≤ (sourceList.tasks.eraseIdx source.index).length := by
      have := List.length_eraseIdx_add_one hsi
      omega
    have hins := spliceInsert_eq_insertIdx (sourceList.tasks.eraseIdx source.index)
      dest.index (setTaskListId (sourceList.tasks.get ⟨source.index, hsi⟩) destList.id)
      hErase
    refine ⟨setFirstById board sourceList.id
      (setTasks sourceList
        (List.insertIdx dest.index
          (setTaskListId (sourceList.tasks.get ⟨source.index, hsi⟩) destList.id)
          (sourceList.tasks.eraseIdx source.index))), ?_, ?_, ?_, ?_⟩
    · rw [onDragEndTask_eq_same board source dest sourceList destList hs hd hideq hsi, hins]
    · rw [← hsid]
      exact find?_setFirstById_self board sourceList.id
        (setTasks sourceList
          (List.insertIdx dest.index
            (setTaskListId (sourceList.tasks.get ⟨source.index, hsi⟩) destList.id)
            (sourceList.tasks.eraseIdx source.index))) sourceList hfind' rfl
    · rw [List.length_insertIdx _ _ hErase]
      have := List.length_eraseIdx_add_one hsi
      omega
    · have hlen : dest.index <
          (List.insertIdx dest.index
            (setTaskListId (sourceList.tasks.get ⟨source.index, hsi⟩) destList.id)
            (sourceList.tasks.eraseIdx source.index)).length := by
        rw [List.length_insertIdx _ _ hErase]
        omega
      rw [List.getElem?_eq_getElem hlen]
      exact congrArg some (List.getElem_insertIdx_self _ _ _ hErase)

theorem c1_witness :
    (∃ newBoard,
      onDragEndTask
          [⟨"A", "a", [⟨"t0", "x", "A"⟩, ⟨"t1", "x", "A"⟩, ⟨"t2", "x", "A"⟩]⟩,
           ⟨"B", "b", [⟨"u0", "x", "B"⟩, ⟨"u1", "x", "B"⟩]⟩]
          ⟨"A", 1⟩ ⟨"B", 1⟩ =
        some (newBoard,
          [Write.taskPos "u0" 0 "B", Write.taskPos "t1" 1 "B", Write.taskPos "u1" 2 "B"]) ∧
      newBoard.find? (fun l => l.id == ("A" : String)) =
        some ⟨"A", "a", [⟨"t0", "x", "A"⟩, ⟨"t2", "x", "A"⟩]⟩ ∧
      newBoard.find? (fun l => l.id == ("B" : String)) =
        some ⟨"B", "b", [⟨"u0", "x", "B"⟩, ⟨"t1", "x", "B"⟩, ⟨"u1", "x", "B"⟩]⟩) ∧
    (∃ newBoard,
      onDragEndTask
          [⟨"A", "a", [⟨"t0", "x", "A"⟩, ⟨"t1", "x", "A"⟩, ⟨"t2", "x", "A"⟩]⟩]
          ⟨"A", 0⟩ ⟨"A", 2⟩ =
        some (newBoard,
          [Write.taskPos "t1" 0 "A", Write.taskPos "t2" 1 "A", Write.taskPos "t0" 2 "A"]) ∧
      newBoard.find? (fun l => l.id == ("A" : String)) =
        some ⟨"A", "a", [⟨"t1", "x", "A"⟩, ⟨"t2", "x", "A"⟩, ⟨"t0", "x", "A"⟩]⟩) := by
  constructor
  · obtain ⟨newBoard, h1, h2, h3, -⟩ :=
      (c1_task_reorder
        [⟨"A", "a", [⟨"t0", "x", "A"⟩, ⟨"t1", "x", "A"⟩, ⟨"t2", "x", "A"⟩]⟩,
         ⟨"B", "b", [⟨"u0", "x", "B"⟩, ⟨"u1", "x", "B"⟩]⟩]
        ⟨"A", 1⟩ ⟨"B", 1⟩
        ⟨"A", "a", [⟨"t0", "x", "A"⟩, ⟨"t1", "x", "A"⟩, ⟨"t2", "x", "A"⟩]⟩
        ⟨"B", "b", [⟨"u0", "x", "B"⟩, ⟨"u1", "x", "B"⟩]⟩
        (by decide) (by decide) (by decide)).1 (by decide) (by decide)
    exact ⟨newBoard, h1, h2, h3⟩
  · obtain ⟨newBoard, h1, h2, -⟩ :=
      (c1_task_reorder
        [⟨"A", "a", [⟨"t0", "x", "A"⟩, ⟨"t1", "x", "A"⟩, ⟨"t2", "x", "A"⟩]⟩]
        ⟨"A", 0⟩ ⟨"A", 2⟩
        ⟨"A", "a", [⟨"t0", "x", "A"⟩, ⟨"t1", "x", "A"⟩, ⟨"t2", "x", "A"⟩]⟩
        ⟨"A", "a", [⟨"t0", "x", "A"⟩, ⟨"t1", "x", "A"⟩, ⟨"t2", "x", "A"⟩]⟩
        (by decide) (by decide) (by decide)).2 (by decide) (by decide)
    exact ⟨newBoard, h1, h2⟩

/-! C3: list reorder semantics. -/

/-- C3: for a list-kind drag event with indices in range, the list-reorder
operation removes the list at `source.index` and inserts it at
`destination.index` (splice-out then splice-in), emits one position write per
list of the new sequence with its new index `0..N-1`, and in particular emits
a write for every list whose position changed. -/
theorem c3_list_reorder (board : Board) (srcIdx dstIdx : Nat)
    (hs : srcIdx < board.length) (hd : dstIdx < board.length) :
    ∃ writes,
      onDragEndList board srcIdx dstIdx =
        some (List.insertIdx dstIdx (board.get ⟨srcIdx, hs⟩) (board.eraseIdx srcIdx),
              writes) ∧
      writes =
        (List.insertIdx dstIdx (board.get ⟨srcIdx, hs⟩) (board.eraseIdx srcIdx)).enum.map
          (fun p => Write.listPos p.2.id p.1) ∧
      ∀ (i : Nat)
        (hi : i < (List.insertIdx dstIdx (board.get ⟨srcIdx, hs⟩)
                    (board.eraseIdx srcIdx)).length),
        Write.listPos
            ((List.insertIdx dstIdx (board.get ⟨srcIdx, hs⟩)
                (board.eraseIdx srcIdx)).get ⟨i, hi⟩).id i ∈ writes := by
  have hdle : dstIdx ≤ (board.eraseIdx srcIdx).length := by
    have := List.length_eraseIdx_add_one hs
    omega
  have hins := spliceInsert_eq_insertIdx (board.eraseIdx srcIdx) dstIdx
    (board.get ⟨srcIdx, hs⟩) hdle
  refine ⟨_, ?_, rfl, ?_⟩
  · rw [onDragEndList_eq board srcIdx dstIdx hs, hins]
  · intro i hi
    apply List.mem_map.mpr
    refine ⟨(i, (List.insertIdx dstIdx (board.get ⟨srcIdx, hs⟩)
      (board.eraseIdx srcIdx)).get ⟨i, hi⟩), ?_, rfl⟩
    rw [List.mk_mem_enum_iff_getElem?]
    simp [List.getElem?_eq_getElem hi]

theorem c3_witness :
    onDragEndList [⟨"L0", "x", []⟩, ⟨"L1", "x", []⟩, ⟨"L2", "x", []⟩] 0 2 =
      some ([⟨"L1", "x", []⟩, ⟨"L2", "x", []⟩, ⟨"L0", "x", []⟩],
        [Write.listPos "L1" 0, Write.listPos "L2" 1, Write.listPos "L0" 2]) := by
  obtain ⟨ws, h1, h2, -⟩ :=
    c3_list_reorder [⟨"L0", "x", []⟩, ⟨"L1", "x", []⟩, ⟨"L2", "x", []⟩] 0 2
      (by decide) (by decide)
  rw [h1, h2]
  rfl

/-! C10: dereference of the spliced-out element. -/

/-- C10: both reorder branches dereference the element removed by the
splice.  Under the precondition that `source.index` is in range the removed
element exists and the handler completes (no `undefined` dereference, the
result is not the crash value `none`); with `source.index` out of range both
branches do crash — an out-of-range source index is not handled as a safe
no-op. -/
theorem c10_undefined_dereference (board : Board) (srcIdx dstIdx : Nat)
    (source dest : DragLoc) (sourceList destList : TaskList)
    (hs : board.find? (fun l => l.id == source.droppableId) = some sourceList)
    (hd : board.find? (fun l => l.id == dest.droppableId) = some destList) :
    (srcIdx < board.length → (onDragEndList board srcIdx dstIdx).isSome) ∧
    (board.length ≤ srcIdx → onDragEndList board srcIdx dstIdx = none) ∧
    (source.index < sourceList.tasks.length → (onDragEndTask board source dest).isSome) ∧
    (sourceList.tasks.length ≤ source.index → onDragEndTask board source dest = none) := by
  refine ⟨?_, ?_, ?_, ?_⟩
  · intro h
    rw [onDragEndList_eq board srcIdx dstIdx h]
    rfl
  · intro h
    exact onDragEndList_eq_none board srcIdx dstIdx h
  · intro h
    by_cases hid : sourceList.id = destList.id
    · rw [onDragEndTask_eq_same board source dest sourceList destList hs hd hid h]
      rfl
    · rw [onDragEndTask_eq_cross board source dest sourceList destList hs hd hid h]
      rfl
  · intro h
    exact onDragEndTask_eq_none board source dest sourceList destList hs hd h

theorem c10_witness :
    (onDragEndTask [⟨"A", "a", [⟨"t0", "x", "A"⟩]⟩] ⟨"A", 0⟩ ⟨"A", 0⟩).isSome ∧
    onDragEndTask [⟨"A", "a", [⟨"t0", "x", "A"⟩]⟩] ⟨"A", 1⟩ ⟨"A", 0⟩ = none ∧
    onDragEndList [⟨"A", "a", [⟨"t0", "x", "A"⟩]⟩] 1 0 = none := by
  refine ⟨?_, ?_, ?_⟩
  · exact (c10_undefined_dereference [⟨"A", "a", [⟨"t0", "x", "A"⟩]⟩] 0 0 ⟨"A", 0⟩ ⟨"A", 0⟩
      ⟨"A", "a", [⟨"t0", "x", "A"⟩]⟩ ⟨"A", "a", [⟨"t0", "x", "A"⟩]⟩
      (by decide) (by decide)).2.2.1 (by decide)
  · exact (c10_undefined_dereference [⟨"A", "a", [⟨"t0", "x", "A"⟩]⟩] 0 0 ⟨"A", 1⟩ ⟨"A", 0⟩
      ⟨"A", "a", [⟨"t0", "x", "A"⟩]⟩ ⟨"A", "a", [⟨"t0", "x", "A"⟩]⟩
      (by decide) (by decide)).2.2.2 (by decide)
  · exact (c10_undefined_dereference [⟨"A", "a", [⟨"t0", "x", "A"⟩]⟩] 1 0 ⟨"A", 0⟩ ⟨"A", 0⟩
      ⟨"A", "a", [⟨"t0", "x", "A"⟩]⟩ ⟨"A", "a", [⟨"t0", "x", "A"⟩]⟩
      (by decide) (by decide)).2.1 (by decide)

/-! Identities used for the idempotent-reorder property. -/

theorem setTasks_self (l : TaskList) : setTasks l l.tasks = l := rfl

theorem spliceInsert_eraseIdx_get (xs : List α) (i : Nat) (h : i < xs.length) :
    spliceInsert (xs.eraseIdx i) i (xs.get ⟨i, h⟩) = xs := by
  have htake : (xs.take i).length = i := by
    rw [List.length_take]
    omega
  simp only [spliceInsert, List.eraseIdx_eq_take_drop_succ]
  rw [List.take_left' htake, List.drop_left' htake]
  conv_rhs => rw [← List.take_append_drop i xs, List.drop_eq_getElem_cons h]
  simp

theorem listRowsOf_map_id (board : Board) :
    (listRowsOf board).map ListRow.id = listIds board := by
  unfold listRowsOf listIds
  rw [List.map_map]
  rw [show (ListRow.id ∘ fun p : Nat × TaskList =>
      ({ id := p.2.id, title := p.2.title, position := p.1 } : ListRow)) =
      (TaskList.id ∘ Prod.snd) from rfl]
  rw [← List.map_map, List.enum_map_snd]

theorem taskRowsOf_map_id (l : TaskList) :
    (taskRowsOf l).map TaskRow.id = l.tasks.map Task.id := by
  unfold taskRowsOf
  rw [List.map_map]
  rw [show (TaskRow.id ∘ fun p : Nat × Task =>
      ({ id := p.2.id, content := p.2.content, list_id := l.id,
         position := p.1 } : TaskRow)) = (Task.id ∘ Prod.snd) from rfl]
  rw [← List.map_map, List.enum_map_snd]

theorem boardTaskRows_map_id (board : Board) :
    (boardTaskRows board).map TaskRow.id = boardTaskIds board := by
  unfold boardTaskRows boardTaskIds
  rw [List.map_flatMap]
  simp only [taskRowsOf_map_id]

theorem canonical_mem_listRowsOf (board : Board) (i : Nat) (hi : i < board.length) :
    ({ id := (board.get ⟨i, hi⟩).id, title := (board.get ⟨i, hi⟩).title,
       position := i } : ListRow) ∈ listRowsOf board := by
  unfold listRowsOf
  apply List.mem_map.mpr
  refine ⟨(i, board.get ⟨i, hi⟩), ?_, rfl⟩
  rw [List.mk_mem_enum_iff_getElem?]
  simp [List.getElem?_eq_getElem hi]

theorem canonical_mem_boardTaskRows (board : Board) (l : TaskList) (hl : l ∈ board)
    (j : Nat) (hj : j < l.tasks.length) :
    ({ id := (l.tasks.get ⟨j, hj⟩).id, content := (l.tasks.get ⟨j, hj⟩).content,
       list_id := l.id, position := j } : TaskRow) ∈ boardTaskRows board := by
  unfold boardTaskRows
  apply List.mem_flatMap.mpr
  refine ⟨l, hl, ?_⟩
  unfold taskRowsOf
  apply List.mem_map.mpr
  refine ⟨(j, l.tasks.get ⟨j, hj⟩), ?_, rfl⟩
  rw [List.mk_mem_enum_iff_getElem?]
  simp [List.getElem?_eq_getElem hj]

theorem listRow_eq_of_id_eq (board : Board) (hnd : (listIds board).Nodup)
    (r : ListRow) (hr : r ∈ listRowsOf board) (i : Nat) (hi : i < board.length)
    (hid : r.id = (board.get ⟨i, hi⟩).id) :
    r = { id := (board.get ⟨i, hi⟩).id, title := (board.get ⟨i, hi⟩).title,
          position := i } := by
  have hnd' : ((listRowsOf board).map ListRow.id).Nodup := by
    rw [listRowsOf_map_id]
    exact hnd
  exact List.inj_on_of_nodup_map hnd' hr (canonical_mem_listRowsOf board i hi) hid

theorem taskRow_eq_of_id_eq (board : Board) (hnd : (boardTaskIds board).Nodup)
    (r : TaskRow) (hr : r ∈ boardTaskRows board) (l : TaskList) (hl : l ∈ board)
    (j : Nat) (hj : j < l.tasks.length)
    (hid : r.id = (l.tasks.get ⟨j, hj⟩).id) :
    r = { id := (l.tasks.get ⟨j, hj⟩).id, content := (l.tasks.get ⟨j, hj⟩).content,
          list_id := l.id, position := j } := by
  have hnd' : ((boardTaskRows board).map TaskRow.id).Nodup := by
    rw [boardTaskRows_map_id]
    exact hnd
  exact List.inj_on_of_nodup_map hnd' hr (canonical_mem_boardTaskRows board l hl j hj) hid

theorem applyWrites_id (db : DB) (ws : List Write)
    (h : ∀ w ∈ ws, applyWrite db w = db) : applyWrites db ws = db := by
  induction ws with
  | nil => rfl
  | cons w ws ih =>
      have hw := h w (List.mem_cons_self w ws)
      unfold applyWrites at ih ⊢
      rw [List.foldl_cons, hw]
      exact ih fun x hx => h x (List.mem_cons_of_mem w hx)

theorem applyWrite_listPos_id (board : Board) (db : DB) (hc : Corresponds board db)
    (i : Nat) (hi : i < board.length) :
    applyWrite db (Write.listPos (board.get ⟨i, hi⟩).id i) = db := by
  have hmap : ∀ r ∈ db.task_lists,
      (if r.id = (board.get ⟨i, hi⟩).id then { r with position := i } else r) = id r := by
    intro r hr
    by_cases hid : r.id = (board.get ⟨i, hi⟩).id
    · rw [if_pos hid]
      have hr' : r ∈ listRowsOf board := hc.lists_perm.mem_iff.mp hr
      rw [listRow_eq_of_id_eq board hc.listIds_nodup r hr' i hi hid]
      rfl
    · rw [if_neg hid]
      rfl
  show DB.mk (db.task_lists.map fun r =>
      if r.id = (board.get ⟨i, hi⟩).id then { r with position := i } else r) db.tasks = db
  rw [List.map_congr_left hmap, List.map_id]

theorem applyWrite_taskPos_id (board : Board) (db : DB) (hc : Corresponds board db)
    (l : TaskList) (hl : l ∈ board) (j : Nat) (hj : j < l.tasks.length) :
    applyWrite db (Write.taskPos (l.tasks.get ⟨j, hj⟩).id j l.id) = db := by
  have hmap : ∀ r ∈ db.tasks,
      (if r.id = (l.tasks.get ⟨j, hj⟩).id
       then { r with position := j, list_id := l.id } else r) = id r := by
    intro r hr
    by_cases hid : r.id = (l.tasks.get ⟨j, hj⟩).id
    · rw [if_pos hid]
      have hr' : r ∈ boardTaskRows board := hc.tasks_perm.mem_iff.mp hr
      rw [taskRow_eq_of_id_eq board hc.taskIds_nodup r hr' l hl j hj hid]
      rfl
    · rw [if_neg hid]
      rfl
  show DB.mk db.task_lists (db.tasks.map fun r =>
      if r.id = (l.tasks.get ⟨j, hj⟩).id
      then { r with position := j, list_id := l.id } else r) = db
  rw [List.map_congr_left hmap, List.map_id]

/-! C5: idempotent reorder. -/

/-- C5: reordering a list or a task to its own current position yields a
board structurally equal to the input, and the emitted writes re-assert
exactly the pre-existing persisted values, so applying them leaves the store
unchanged (assuming the persisted positions were dense and matched the
in-memory order, and in-memory list-references are consistent). -/
theorem c5_idempotent_reorder (board : Board) (db : DB)
    (hc : Corresponds board db) (hcons : ListIdConsistent board) :
    (∀ (i : Nat), i < board.length →
      ∃ ws, onDragEndList board i i = some (board, ws) ∧ applyWrites db ws = db) ∧
    (∀ (loc : DragLoc) (sourceList : TaskList),
      board.find? (fun l => l.id == loc.droppableId) = some sourceList →
      loc.index < sourceList.tasks.length →
      ∃ ws, onDragEndTask board loc loc = some (board, ws) ∧ applyWrites db ws = db) := by
  constructor
  · intro i hi
    refine ⟨board.enum.map fun p => Write.listPos p.2.id p.1, ?_, ?_⟩
    · rw [onDragEndList_eq board i i hi, spliceInsert_eraseIdx_get board i hi]
    · apply applyWrites_id
      intro w hw
      obtain ⟨⟨j, t⟩, hp, rfl⟩ := List.mem_map.mp hw
      have h2 := List.mk_mem_enum_iff_getElem?.mp hp
      obtain ⟨hj, hgot⟩ := List.getElem?_eq_some.mp h2
      have ht : t = board.get ⟨j, hj⟩ := by
        rw [← hgot]
        rfl
      rw [ht]
      exact applyWrite_listPos_id board db hc j hj
  · intro loc sourceList hfind hj
    have hsid : sourceList.id = loc.droppableId := find?_id_eq _ _ _ hfind
    have hmem : sourceList ∈ board := List.mem_of_find?_eq_some hfind
    have hfind' : board.find? (fun l => l.id == sourceList.id) = some sourceList := by
      rw [hsid]
      exact hfind
    have htask : (sourceList.tasks.get ⟨loc.index, hj⟩).list_id = sourceList.id :=
      hcons sourceList hmem _ (sourceList.tasks.get_mem _ _)
    refine ⟨sourceList.tasks.enum.map fun p => Write.taskPos p.2.id p.1 sourceList.id,
      ?_, ?_⟩
    · rw [onDragEndTask_eq_same board loc loc sourceList sourceList hfind hfind rfl hj]
      have hmoved : setTaskListId (sourceList.tasks.get ⟨loc.index, hj⟩) sourceList.id =
          sourceList.tasks.get ⟨loc.index, hj⟩ := by
        rw [← htask]
        rfl
      rw [hmoved, spliceInsert_eraseIdx_get sourceList.tasks loc.index hj, setTasks_self,
        setFirstById_found_self board sourceList.id sourceList hfind']
    · apply applyWrites_id
      intro w hw
      obtain ⟨⟨j, t⟩, hp, rfl⟩ := List.mem_map.mp hw
      have h2 := List.mk_mem_enum_iff_getElem?.mp hp
      obtain ⟨hj', hgot⟩ := List.getElem?_eq_some.mp h2
      have ht : t = sourceList.tasks.get ⟨j, hj'⟩ := by
        rw [← hgot]
        rfl
      rw [ht]
      exact applyWrite_taskPos_id board db hc sourceList hmem j hj'

theorem c5_witness :
    (∃ ws,
      onDragEndList
          [⟨"A", "a", [⟨"t0", "x", "A"⟩, ⟨"t1", "x", "A"⟩]⟩, ⟨"B", "b", [⟨"u0", "x", "B"⟩]⟩]
          0 0 =
        some ([⟨"A", "a", [⟨"t0", "x", "A"⟩, ⟨"t1", "x", "A"⟩]⟩,
               ⟨"B", "b", [⟨"u0", "x", "B"⟩]⟩], ws) ∧
      applyWrites
          ⟨[⟨"A", "a", 0⟩, ⟨"B", "b", 1⟩],
           [⟨"t0", "x", "A", 0⟩, ⟨"t1", "x", "A", 1⟩, ⟨"u0", "x", "B", 0⟩]⟩ ws =
        ⟨[⟨"A", "a", 0⟩, ⟨"B", "b", 1⟩],
         [⟨"t0", "x", "A", 0⟩, ⟨"t1", "x", "A", 1⟩, ⟨"u0", "x", "B", 0⟩]⟩) ∧
    (∃ ws,
      onDragEndTask
          [⟨"A", "a", [⟨"t0", "x", "A"⟩, ⟨"t1", "x", "A"⟩]⟩, ⟨"B", "b", [⟨"u0", "x", "B"⟩]⟩]
          ⟨"A", 1⟩ ⟨"A", 1⟩ =
        some ([⟨"A", "a", [⟨"t0", "x", "A"⟩, ⟨"t1", "x", "A"⟩]⟩,
               ⟨"B", "b", [⟨"u0", "x", "B"⟩]⟩], ws) ∧
      applyWrites
          ⟨[⟨"A", "a", 0⟩, ⟨"B", "b", 1⟩],
           [⟨"t0", "x", "A", 0⟩, ⟨"t1", "x", "A", 1⟩, ⟨"u0", "x", "B", 0⟩]⟩ ws =
        ⟨[⟨"A", "a", 0⟩, ⟨"B", "b", 1⟩],
         [⟨"t0", "x", "A", 0⟩, ⟨"t1", "x", "A", 1⟩, ⟨"u0", "x", "B", 0⟩]⟩) := by
  have h := c5_idempotent_reorder
    [⟨"A", "a", [⟨"t0", "x", "A"⟩, ⟨"t1", "x", "A"⟩]⟩, ⟨"B", "b", [⟨"u0", "x", "B"⟩]⟩]
    ⟨[⟨"A", "a", 0⟩, ⟨"B", "b", 1⟩],
     [⟨"t0", "x", "A", 0⟩, ⟨"t1", "x", "A", 1⟩, ⟨"u0", "x", "B", 0⟩]⟩
    ⟨by decide, by decide, by decide, by decide⟩
    (by unfold ListIdConsistent; decide)
  exact ⟨h.1 0 (by decide),
    h.2 ⟨"A", 1⟩ ⟨"A", "a", [⟨"t0", "x", "A"⟩, ⟨"t1", "x", "A"⟩]⟩ (by decide) (by decide)⟩

/-! Row-level view of a write pass: applying a list of writes to the store
acts on every row independently. -/

def stepListRow (r : ListRow) : Write → ListRow
  | .listPos i p => if r.id = i then { r with position := p } else r
  | .taskPos _ _ _ => r

def stepTaskRow (r : TaskRow) : Write → TaskRow
  | .taskPos i p lid => if r.id = i then { r with position := p, list_id := lid } else r
  | .listPos _ _ => r

theorem applyWrites_task_lists (db : DB) (ws : List Write) :
    (applyWrites db ws).task_lists = db.task_lists.map fun r => ws.foldl stepListRow r := by
  induction ws generalizing db with
  | nil => simp [applyWrites]
  | cons w ws ih =>
      have hstep : (applyWrite db w).task_lists =
          db.task_lists.map fun r => stepListRow r w := by
        cases w with
        | listPos i p => rfl
        | taskPos i p lid =>
            show db.task_lists = db.task_lists.map fun r => r
            simp
      calc (applyWrites db (w :: ws)).task_lists
          = (applyWrites (applyWrite db w) ws).task_lists := rfl
        _ = (applyWrite db w).task_lists.map (fun r => ws.foldl stepListRow r) :=
              ih (applyWrite db w)
        _ = (db.task_lists.map fun r => stepListRow r w).map
              (fun r => ws.foldl stepListRow r) := by rw [hstep]
        _ = db.task_lists.map fun r => (w :: ws).foldl stepListRow r := by
              rw [List.map_map]
              rfl

theorem applyWrites_tasks (db : DB) (ws : List Write) :
    (applyWrites db ws).tasks = db.tasks.map fun r => ws.foldl stepTaskRow r := by
  induction ws generalizing db with
  | nil => simp [applyWrites]
  | cons w ws ih =>
      have hstep : (applyWrite db w).tasks = db.tasks.map fun r => stepTaskRow r w := by
        cases w with
        | taskPos i p lid => rfl
        | listPos i p =>
            show db.tasks = db.tasks.map fun r => r
            simp
      calc (applyWrites db (w :: ws)).tasks
          = (applyWrites (applyWrite db w) ws).tasks := rfl
        _ = (applyWrite db w).tasks.map (fun r => ws.foldl stepTaskRow r) :=
              ih (applyWrite db w)
        _ = (db.tasks.map fun r => stepTaskRow r w).map
              (fun r => ws.foldl stepTaskRow r) := by rw [hstep]
        _ = db.tasks.map fun r => (w :: ws).foldl stepTaskRow r := by
              rw [List.map_map]
              rfl

theorem foldl_stepListRow_const : ∀ (ws : List Write) (r : ListRow),
    (∀ w ∈ ws, ∀ r' : ListRow, stepListRow r' w = r') → ws.foldl stepListRow r = r
  | [], _, _ => rfl
  | w :: ws, r, h => by
      rw [List.foldl_cons, h w (List.mem_cons_self w ws) r]
      exact foldl_stepListRow_const ws r fun x hx r' => h x (List.mem_cons_of_mem w hx) r'

theorem foldl_stepTaskRow_const : ∀ (ws : List Write) (r : TaskRow),
    (∀ w ∈ ws, ∀ r' : TaskRow, stepTaskRow r' w = r') → ws.foldl stepTaskRow r = r
  | [], _, _ => rfl
  | w :: ws, r, h => by
      rw [List.foldl_cons, h w (List.mem_cons_self w ws) r]
      exact foldl_stepTaskRow_const ws r fun x hx r' => h x (List.mem_cons_of_mem w hx) r'

theorem applyWrites_task_lists_id (db : DB) (ws : List Write)
    (h : ∀ w ∈ ws, ∀ r : ListRow, stepListRow r w = r) :
    (applyWrites db ws).task_lists = db.task_lists := by
  rw [applyWrites_task_lists]
  have hmap : ∀ r ∈ db.task_lists, ws.foldl stepListRow r = id r :=
    fun r _ => foldl_stepListRow_const ws r h
  rw [List.map_congr_left hmap, List.map_id]

theorem applyWrites_tasks_id (db : DB) (ws : List Write)
    (h : ∀ w ∈ ws, ∀ r : TaskRow, stepTaskRow r w = r) :
    (applyWrites db ws).tasks = db.tasks := by
  rw [applyWrites_tasks]
  have hmap : ∀ r ∈ db.tasks, ws.foldl stepTaskRow r = id r :=
    fun r _ => foldl_stepTaskRow_const ws r h
  rw [List.map_congr_left hmap, List.map_id]

/-! Effect of the task write pass on a single row. -/

theorem taskRowFold_not_mem : ∀ (ts : List Task) (k : Nat) (r : TaskRow) (lid : String),
    r.id ∉ ts.map Task.id →
    ((List.enumFrom k ts).map fun p => Write.taskPos p.2.id p.1 lid).foldl stepTaskRow r = r
  | [], _, _, _, _ => rfl
  | t :: ts, k, r, lid, h => by
      have hne : r.id ≠ t.id := by
        intro e
        exact h (by rw [List.map_cons, e]; exact List.mem_cons_self _ _)
      rw [List.enumFrom_cons, List.map_cons, List.foldl_cons]
      have hstep : stepTaskRow r (Write.taskPos t.id k lid) = r := by
        simp [stepTaskRow, hne]
      rw [hstep]
      exact taskRowFold_not_mem ts (k + 1) r lid
        fun hm => h (by rw [List.map_cons]; exact List.mem_cons_of_mem _ hm)

theorem taskRowFold_mem : ∀ (ts : List Task) (k : Nat) (r : TaskRow) (lid : String),
    (ts.map Task.id).Nodup → ∀ (j : Nat) (hj : j < ts.length),
    r.id = (ts.get ⟨j, hj⟩).id →
    ((List.enumFrom k ts).map fun p => Write.taskPos p.2.id p.1 lid).foldl stepTaskRow r =
      { r with position := k + j, list_id := lid }
  | [], _, _, _, _, j, hj, _ => absurd hj (by simp)
  | t :: ts, k, r, lid, hnd, 0, hj, hid => by
      rw [List.enumFrom_cons, List.map_cons, List.foldl_cons]
      have hid' : r.id = t.id := hid
      have hstep : stepTaskRow r (Write.taskPos t.id k lid) =
          { r with position := k, list_id := lid } := by
        simp [stepTaskRow, hid']
      rw [hstep]
      have hnot : ({ r with position := k, list_id := lid } : TaskRow).id ∉
          ts.map Task.id := by
        show r.id ∉ ts.map Task.id
        rw [hid']
        rw [List.map_cons] at hnd
        exact (List.nodup_cons.mp hnd).1
      rw [taskRowFold_not_mem ts (k + 1) _ lid hnot, Nat.add_zero]
  | t :: ts, k, r, lid, hnd, j + 1, hj, hid => by
      rw [List.enumFrom_cons, List.map_cons, List.foldl_cons]
      have hj' : j < ts.length := Nat.lt_of_succ_lt_succ hj
      have hmem : r.id ∈ ts.map Task.id := by
        rw [show r.id = (ts.get ⟨j, hj'⟩).id from hid]
        exact List.mem_map_of_mem _ (ts.get_mem _ _)
      rw [List.map_cons] at hnd
      have hne : r.id ≠ t.id := by
        intro e
        exact (List.nodup_cons.mp hnd).1 (e ▸ hmem)
      have hstep : stepTaskRow r (Write.taskPos t.id k lid) = r := by
        simp [stepTaskRow, hne]
      rw [hstep]
      rw [taskRowFold_mem ts (k + 1) r lid (List.nodup_cons.mp hnd).2 j hj' hid]
      have : k + 1 + j = k + (j + 1) := by omega
      rw [this]

theorem taskRowFold_indexOf (ts : List Task) (r : TaskRow) (lid : String)
    (hnd : (ts.map Task.id).Nodup) (hmem : r.id ∈ ts.map Task.id) :
    (ts.enum.map fun p => Write.taskPos p.2.id p.1 lid).foldl stepTaskRow r =
      { r with position := (ts.map Task.id).indexOf r.id, list_id := lid } := by
  have hlt : (ts.map Task.id).indexOf r.id < (ts.map Task.id).length :=
    List.indexOf_lt_length.mpr hmem
  have hlt' : (ts.map Task.id).indexOf r.id < ts.length := by
    rw [List.length_map] at hlt
    exact hlt
  have hid : r.id = (ts.get ⟨(ts.map Task.id).indexOf r.id, hlt'⟩).id := by
    have hg := List.getElem_indexOf hlt
    rw [List.getElem_map] at hg
    exact hg.symm
  have hfold := taskRowFold_mem ts 0 r lid hnd _ hlt' hid
  rw [show List.enum ts = List.enumFrom 0 ts from rfl, hfold]
  have : 0 + (ts.map Task.id).indexOf r.id = (ts.map Task.id).indexOf r.id := by omega
  rw [this]

/-! Effect of the list write pass on a single row. -/

theorem listRowFold_not_mem : ∀ (ls : List TaskList) (k : Nat) (r : ListRow),
    r.id ∉ ls.map TaskList.id →
    ((List.enumFrom k ls).map fun p => Write.listPos p.2.id p.1).foldl stepListRow r = r
  | [], _, _, _ => rfl
  | l :: ls, k, r, h => by
      have hne : r.id ≠ l.id := by
        intro e
        exact h (by rw [List.map_cons, e]; exact List.mem_cons_self _ _)
      rw [List.enumFrom_cons, List.map_cons, List.foldl_cons]
      have hstep : stepListRow r (Write.listPos l.id k) = r := by
        simp [stepListRow, hne]
      rw [hstep]
      exact listRowFold_not_mem ls (k + 1) r
        fun hm => h (by rw [List.map_cons]; exact List.mem_cons_of_mem _ hm)

theorem listRowFold_mem : ∀ (ls : List TaskList) (k : Nat) (r : ListRow),
    (ls.map TaskList.id).Nodup → ∀ (j : Nat) (hj : j < ls.length),
    r.id = (ls.get ⟨j, hj⟩).id →
    ((List.enumFrom k ls).map fun p => Write.listPos p.2.id p.1).foldl stepListRow r =
      { r with position := k + j }
  | [], _, _, _, j, hj, _ => absurd hj (by simp)
  | l :: ls, k, r, hnd, 0, hj, hid => by
      rw [List.enumFrom_cons, List.map_cons, List.foldl_cons]
      have hid' : r.id = l.id := hid
      have hstep : stepListRow r (Write.listPos l.id k) = { r with position := k } := by
        simp [stepListRow, hid']
      rw [hstep]
      have hnot : ({ r with position := k } : ListRow).id ∉ ls.map TaskList.id := by
        show r.id ∉ ls.map TaskList.id
        rw [hid']
        rw [List.map_cons] at hnd
        exact (List.nodup_cons.mp hnd).1
      rw [listRowFold_not_mem ls (k + 1) _ hnot, Nat.add_zero]
  | l :: ls, k, r, hnd, j + 1, hj, hid => by
      rw [List.enumFrom_cons, List.map_cons, List.foldl_cons]
      have hj' : j < ls.length := Nat.lt_of_succ_lt_succ hj
      have hmem : r.id ∈ ls.map TaskList.id := by
        rw [show r.id = (ls.get ⟨j, hj'⟩).id from hid]
        exact List.mem_map_of_mem _ (ls.get_mem _ _)
      rw [List.map_cons] at hnd
      have hne : r.id ≠ l.id := by
        intro e
        exact (List.nodup_cons.mp hnd).1 (e ▸ hmem)
      have hstep : stepListRow r (Write.listPos l.id k) = r := by
        simp [stepListRow, hne]
      rw [hstep]
      rw [listRowFold_mem ls (k + 1) r (List.nodup_cons.mp hnd).2 j hj' hid]
      have : k + 1 + j = k + (j + 1) := by omega
      rw [this]

theorem listRowFold_indexOf (ls : List TaskList) (r : ListRow)
    (hnd : (ls.map TaskList.id).Nodup) (hmem : r.id ∈ ls.map TaskList.id) :
    (ls.enum.map fun p => Write.listPos p.2.id p.1).foldl stepListRow r =
      { r with position := (ls.map TaskList.id).indexOf r.id } := by
  have hlt : (ls.map TaskList.id).indexOf r.id < (ls.map TaskList.id).length :=
    List.indexOf_lt_length.mpr hmem
  have hlt' : (ls.map TaskList.id).indexOf r.id < ls.length := by
    rw [List.length_map] at hlt
    exact hlt
  have hid : r.id = (ls.get ⟨(ls.map TaskList.id).indexOf r.id, hlt'⟩).id := by
    have hg := List.getElem_indexOf hlt
    rw [List.getElem_map] at hg
    exact hg.symm
  have hfold := listRowFold_mem ls 0 r hnd _ hlt' hid
  rw [show List.enum ls = List.enumFrom 0 ls from rfl, hfold]
  have : 0 + (ls.map TaskList.id).indexOf r.id = (ls.map TaskList.id).indexOf r.id := by
    omega
  rw [this]

/-! Generic list lemmas for the density argument. -/

theorem filter_map_split {f g : α → α} {pred c : α → Bool} :
    ∀ (rows : List α), (∀ r ∈ rows, pred (f r) = c r) →
    (∀ r ∈ rows, c r = true → f r = g r) →
    (rows.map f).filter pred = (rows.filter c).map g
  | [], _, _ => rfl
  | r :: rows, hkeep, hval => by
      rw [List.map_cons, List.filter_cons, List.filter_cons]
      rw [hkeep r (List.mem_cons_self r rows)]
      have hrec := filter_map_split rows
        (fun x hx => hkeep x (List.mem_cons_of_mem r hx))
        (fun x hx => hval x (List.mem_cons_of_mem r hx))
      by_cases hc : c r = true
      · rw [hc]
        simp only [if_pos]
        rw [List.map_cons, hval r (List.mem_cons_self r rows) hc, hrec]
      · rw [eq_false_of_ne_true hc]
        simp only [if_neg, Bool.false_eq_true, not_false_iff]
        exact hrec

theorem filter_mem_perm [DecidableEq α] (l s : List α) (hl : l.Nodup) (hs : s.Nodup)
    (hsub : ∀ a ∈ s, a ∈ l) :
    List.Perm (l.filter fun a => decide (a ∈ s)) s := by
  apply List.perm_of_nodup_nodup_toFinset_eq (hl.filter _) hs
  ext a
  simp only [List.mem_toFinset, List.mem_filter, decide_eq_true_eq]
  constructor
  · rintro ⟨-, h⟩
    exact h
  · intro h
    exact ⟨hsub a h, h⟩

theorem map_indexOf_self_nodup [DecidableEq α] : ∀ (l : List α), l.Nodup →
    l.map (fun a => l.indexOf a) = List.range l.length
  | [], _ => rfl
  | a :: l, hnd => by
      rw [List.map_cons, List.indexOf_cons_self]
      have hal : a ∉ l := (List.nodup_cons.mp hnd).1
      have hmap : ∀ b ∈ l, (a :: l).indexOf b = (fun x => l.indexOf x + 1) b := by
        intro b hb
        have hne : a ≠ b := fun e => hal (e ▸ hb)
        rw [List.indexOf_cons_ne l hne]
      rw [List.map_congr_left hmap]
      rw [show (fun x => l.indexOf x + 1) = (Nat.succ ∘ fun x : α => l.indexOf x) from rfl]
      rw [← List.map_map, map_indexOf_self_nodup l (List.nodup_cons.mp hnd).2]
      rw [show ((a :: l).length) = l.length + 1 from rfl, List.range_succ_eq_map]

/-! Density of the positions written by a full write pass. -/

theorem dense_of_perm_range (ps : List Nat) (n : Nat)
    (h : List.Perm ps (List.range n)) : Dense ps := by
  have hl : ps.length = n := by
    have := h.length_eq
    rwa [List.length_range] at this
  unfold Dense
  rw [hl]
  exact h

theorem map_filter_comm (f : α → β) (p : β → Bool) :
    ∀ (l : List α), (l.filter fun a => p (f a)).map f = (l.map f).filter p
  | [] => rfl
  | a :: l => by
      simp only [List.filter_cons, List.map_cons]
      by_cases h : p (f a)
      · simp [h, map_filter_comm f p l]
      · simp [h, map_filter_comm f p l]

theorem taskPass_density (rows : List TaskRow) (ts : List Task) (lid : String)
    (hndrows : (rows.map TaskRow.id).Nodup)
    (hndts : (ts.map Task.id).Nodup)
    (hsub : ∀ i ∈ ts.map Task.id, i ∈ rows.map TaskRow.id)
    (hcover : ∀ r ∈ rows, r.list_id = lid → r.id ∈ ts.map Task.id) :
    List.Perm
      (((rows.map fun r =>
            (ts.enum.map fun p => Write.taskPos p.2.id p.1 lid).foldl stepTaskRow r).filter
          fun r => r.list_id == lid).map TaskRow.position)
      (List.range ts.length) := by
  have hpoint : ∀ r ∈ rows,
      (ts.enum.map fun p => Write.taskPos p.2.id p.1 lid).foldl stepTaskRow r =
        if r.id ∈ ts.map Task.id
        then ({ r with position := (ts.map Task.id).indexOf r.id, list_id := lid } : TaskRow)
        else r := by
    intro r _
    by_cases hm : r.id ∈ ts.map Task.id
    · rw [if_pos hm]
      exact taskRowFold_indexOf ts r lid hndts hm
    · rw [if_neg hm]
      exact taskRowFold_not_mem ts 0 r lid hm
  have hkeep : ∀ r ∈ rows,
      (((ts.enum.map fun p => Write.taskPos p.2.id p.1 lid).foldl stepTaskRow r).list_id ==
        lid) = decide (r.id ∈ ts.map Task.id) := by
    intro r hr
    rw [hpoint r hr]
    by_cases hm : r.id ∈ ts.map Task.id
    · rw [if_pos hm]
      simp [hm]
    · rw [if_neg hm]
      by_cases hl : r.list_id = lid
      · exact absurd (hcover r hr hl) hm
      · simp [hl, hm]
  have hval : ∀ r ∈ rows, decide (r.id ∈ ts.map Task.id) = true →
      (ts.enum.map fun p => Write.taskPos p.2.id p.1 lid).foldl stepTaskRow r =
        ({ r with position := (ts.map Task.id).indexOf r.id, list_id := lid } : TaskRow) := by
    intro r hr hc
    rw [hpoint r hr, if_pos (of_decide_eq_true hc)]
  rw [filter_map_split rows hkeep hval]
  rw [List.map_map]
  rw [show (TaskRow.position ∘ fun r : TaskRow =>
      ({ r with position := (ts.map Task.id).indexOf r.id, list_id := lid } : TaskRow)) =
      ((fun i => (ts.map Task.id).indexOf i) ∘ TaskRow.id) from rfl]
  rw [← List.map_map]
  rw [show (List.map TaskRow.id
        (rows.filter fun r => decide (r.id ∈ ts.map Task.id))) =
      ((rows.map TaskRow.id).filter fun i => decide (i ∈ ts.map Task.id)) from
    map_filter_comm TaskRow.id (fun i => decide (i ∈ ts.map Task.id)) rows]
  have hpermIds :=
    filter_mem_perm (rows.map TaskRow.id) (ts.map Task.id) hndrows hndts hsub
  have hmapped := hpermIds.map fun i => (ts.map Task.id).indexOf i
  rw [map_indexOf_self_nodup (ts.map Task.id) hndts, List.length_map] at hmapped
  exact hmapped

theorem listPass_density (rows : List ListRow) (ls : List TaskList)
    (hndls : (ls.map TaskList.id).Nodup)
    (hperm : List.Perm (rows.map ListRow.id) (ls.map TaskList.id)) :
    List.Perm
      ((rows.map fun r =>
          (ls.enum.map fun p => Write.listPos p.2.id p.1).foldl stepListRow r).map
        ListRow.position)
      (List.range ls.length) := by
  have hpoint : ∀ r ∈ rows,
      ((ls.enum.map fun p => Write.listPos p.2.id p.1).foldl stepListRow r) =
        ({ r with position := (ls.map TaskList.id).indexOf r.id } : ListRow) := by
    intro r hr
    have hm : r.id ∈ ls.map TaskList.id :=
      hperm.mem_iff.mp (List.mem_map_of_mem _ hr)
    exact listRowFold_indexOf ls r hndls hm
  rw [List.map_congr_left hpoint]
  rw [List.map_map]
  rw [show (ListRow.position ∘ fun r : ListRow =>
      ({ r with position := (ls.map TaskList.id).indexOf r.id } : ListRow)) =
      ((fun i => (ls.map TaskList.id).indexOf i) ∘ ListRow.id) from rfl]
  rw [← List.map_map]
  have hmapped := hperm.map fun i => (ls.map TaskList.id).indexOf i
  rw [map_indexOf_self_nodup (ls.map TaskList.id) hndls, List.length_map] at hmapped
  exact hmapped

/-! Facts about the board's task ids, per list. -/

theorem mem_boardTaskRows_fields (board : Board) (r : TaskRow)
    (hr : r ∈ boardTaskRows board) :
    ∃ l, l ∈ board ∧ r.list_id = l.id ∧ r.id ∈ l.tasks.map Task.id := by
  unfold boardTaskRows at hr
  obtain ⟨l, hl, hrl⟩ := List.mem_flatMap.mp hr
  unfold taskRowsOf at hrl
  obtain ⟨⟨j, t⟩, hp, rfl⟩ := List.mem_map.mp hrl
  have h2 : l.tasks[j]? = some t := List.mk_mem_enum_iff_getElem?.mp hp
  exact ⟨l, hl, rfl, List.mem_map_of_mem _ (List.getElem?_mem h2)⟩

theorem component_task_ids_nodup (board : Board) (hnd : (boardTaskIds board).Nodup)
    (l : TaskList) (hl : l ∈ board) : (l.tasks.map Task.id).Nodup := by
  unfold boardTaskIds at hnd
  exact (List.nodup_flatMap.mp hnd).1 l hl

theorem component_task_ids_sub (board : Board) (l : TaskList) (hl : l ∈ board) :
    ∀ i ∈ l.tasks.map Task.id, i ∈ boardTaskIds board := by
  intro i hi
  unfold boardTaskIds
  exact List.mem_flatMap.mpr ⟨l, hl, hi⟩

theorem component_task_ids_disjoint (board : Board) (hnd : (boardTaskIds board).Nodup)
    (l1 l2 : TaskList) (h1 : l1 ∈ board) (h2 : l2 ∈ board) (hne : l1 ≠ l2) :
    List.Disjoint (l1.tasks.map Task.id) (l2.tasks.map Task.id) := by
  unfold boardTaskIds at hnd
  have hp := (List.nodup_flatMap.mp hnd).2
  exact List.Pairwise.forall (fun a b hab => List.Disjoint.symm hab) hp h1 h2 hne

theorem list_eq_of_id_eq (board : Board) (hnd : (listIds board).Nodup)
    (l1 l2 : TaskList) (h1 : l1 ∈ board) (h2 : l2 ∈ board) (hid : l1.id = l2.id) :
    l1 = l2 := by
  unfold listIds at hnd
  exact List.inj_on_of_nodup_map hnd h1 h2 hid

theorem spliceInsert_map_id_perm_cons (xs : List Task) (i : Nat) (x : Task) :
    List.Perm ((spliceInsert xs i x).map Task.id) (x.id :: xs.map Task.id) := by
  have h := (spliceInsert_perm xs i x).map Task.id
  simpa using h

theorem tasks_map_id_perm (xs : List Task) (i : Nat) (h : i < xs.length) :
    List.Perm (xs.map Task.id) ((xs.get ⟨i, h⟩).id :: (xs.eraseIdx i).map Task.id) := by
  have h2 := (perm_get_cons_eraseIdx xs i h).map Task.id
  simpa using h2

/-! Density of the persisted positions before any write, under the
correspondence invariant. -/

theorem listRowsOf_map_position (board : Board) :
    (listRowsOf board).map ListRow.position = List.range board.length := by
  unfold listRowsOf
  rw [List.map_map]
  rw [show (ListRow.position ∘ fun p : Nat × TaskList =>
      ({ id := p.2.id, title := p.2.title, position := p.1 } : ListRow)) =
      (Prod.fst : Nat × TaskList → Nat) from rfl]
  exact List.enum_map_fst board

theorem taskRowsOf_map_position (l : TaskList) :
    (taskRowsOf l).map TaskRow.position = List.range l.tasks.length := by
  unfold taskRowsOf
  rw [List.map_map]
  rw [show (TaskRow.position ∘ fun p : Nat × Task =>
      ({ id := p.2.id, content := p.2.content, list_id := l.id,
         position := p.1 } : TaskRow)) = (Prod.fst : Nat × Task → Nat) from rfl]
  exact List.enum_map_fst l.tasks

theorem mem_taskRowsOf_list_id (l : TaskList) (r : TaskRow) (hr : r ∈ taskRowsOf l) :
    r.list_id = l.id := by
  unfold taskRowsOf at hr
  obtain ⟨p, -, rfl⟩ := List.mem_map.mp hr
  rfl

theorem corresponds_list_dense (board : Board) (db : DB) (hc : Corresponds board db) :
    Dense (listPositions db) := by
  unfold listPositions
  apply dense_of_perm_range _ board.length
  have h := hc.lists_perm.map ListRow.position
  rwa [listRowsOf_map_position] at h

theorem boardTaskRows_filter_list : ∀ (board : Board), (listIds board).Nodup →
    ∀ l ∈ board,
    (boardTaskRows board).filter (fun r => r.list_id == l.id) = taskRowsOf l
  | [], _, l, hl => absurd hl (List.not_mem_nil l)
  | b :: bs, hnd, l, hl => by
      have hnd' : (b.id :: bs.map TaskList.id).Nodup := hnd
      have happ : boardTaskRows (b :: bs) = taskRowsOf b ++ boardTaskRows bs := rfl
      rw [happ, List.filter_append]
      rcases List.mem_cons.mp hl with rfl | hmem
      · have h1 : (taskRowsOf l).filter (fun r => r.list_id == l.id) = taskRowsOf l := by
          apply List.filter_eq_self.mpr
          intro r hr
          simp [mem_taskRowsOf_list_id l r hr]
        have h2 : (boardTaskRows bs).filter (fun r => r.list_id == l.id) = [] := by
          apply List.filter_eq_nil_iff.mpr
          intro r hr
          obtain ⟨l', hl', hfld, -⟩ := mem_boardTaskRows_fields bs r hr
          have hne : l'.id ≠ l.id := by
            intro e
            exact (List.nodup_cons.mp hnd').1 (e ▸ List.mem_map_of_mem TaskList.id hl')
          simp [hfld, hne]
        rw [h1, h2, List.append_nil]
      · have hbne : b.id ≠ l.id := by
          intro e
          exact (List.nodup_cons.mp hnd').1 (e ▸ List.mem_map_of_mem TaskList.id hmem)
        have h1 : (taskRowsOf b).filter (fun r => r.list_id == l.id) = [] := by
          apply List.filter_eq_nil_iff.mpr
          intro r hr
          simp [mem_taskRowsOf_list_id b r hr, hbne]
        rw [h1, List.nil_append]
        exact boardTaskRows_filter_list bs (List.nodup_cons.mp hnd').2 l hmem

theorem corresponds_task_dense (board : Board) (db : DB) (hc : Corresponds board db)
    (l : TaskList) (hl : l ∈ board) : Dense (taskPositions db l.id) := by
  unfold taskPositions
  apply dense_of_perm_range _ l.tasks.length
  have h := (List.Perm.filter (fun r => r.list_id == l.id) hc.tasks_perm).map
    TaskRow.position
  rwa [boardTaskRows_filter_list board hc.listIds_nodup l hl,
    taskRowsOf_map_position] at h

theorem lists_eq_of_shared_task_id (board : Board) (hnd : (boardTaskIds board).Nodup)
    (l1 l2 : TaskList) (h1 : l1 ∈ board) (h2 : l2 ∈ board) (i : String)
    (hi1 : i ∈ l1.tasks.map Task.id) (hi2 : i ∈ l2.tasks.map Task.id) : l1 = l2 := by
  by_contra hne
  exact component_task_ids_disjoint board hnd l1 l2 h1 h2 hne hi1 hi2

/-- Rows of a list that receives none of the writes of a task write pass are
kept, and no row is moved into it: the filtered rows are unchanged. -/
theorem taskPass_untouched (rows : List TaskRow) (ts : List Task) (lid tid : String)
    (hndts : (ts.map Task.id).Nodup) (hne : lid ≠ tid)
    (hA : ∀ r ∈ rows, r.id ∈ ts.map Task.id → r.list_id ≠ tid) :
    ((rows.map fun r =>
        (ts.enum.map fun p => Write.taskPos p.2.id p.1 lid).foldl stepTaskRow r).filter
      fun r => r.list_id == tid) =
    rows.filter fun r => r.list_id == tid := by
  have hkeep : ∀ r ∈ rows,
      (((ts.enum.map fun p => Write.taskPos p.2.id p.1 lid).foldl
          stepTaskRow r).list_id == tid) = (r.list_id == tid) := by
    intro r hr
    by_cases hm : r.id ∈ ts.map Task.id
    · rw [taskRowFold_indexOf ts r lid hndts hm]
      simp [hne, hA r hr hm]
    · have hfix : (ts.enum.map fun p => Write.taskPos p.2.id p.1 lid).foldl
          stepTaskRow r = r := taskRowFold_not_mem ts 0 r lid hm
      rw [hfix]
  have hval : ∀ r ∈ rows, (r.list_id == tid) = true →
      (ts.enum.map fun p => Write.taskPos p.2.id p.1 lid).foldl stepTaskRow r = id r := by
    intro r hr hc
    have htid : r.list_id = tid := by simpa using hc
    have hnm : r.id ∉ ts.map Task.id := fun hm => hA r hr hm htid
    exact taskRowFold_not_mem ts 0 r lid hnm
  rw [@filter_map_split TaskRow
    (fun r => (ts.enum.map fun p => Write.taskPos p.2.id p.1 lid).foldl stepTaskRow r)
    id (fun r => r.list_id == tid) (fun r => r.list_id == tid) rows hkeep hval,
    List.map_id]

/-! C2: position density after a reorder. -/

/-- C2 (amended): after a reorder applied to a board whose persisted state
corresponds to it (dense positions matching the in-memory order): a list
reorder with an in-range source index leaves the persisted list positions
exactly `{0, …, m-1}`, leaves the task rows untouched, and so every list's
persisted task positions remain exactly `{0, …, n-1}`; a task reorder leaves
the list rows untouched (so list positions stay dense), makes the
destination list's persisted task positions exactly `{0, …, k-1}`, and every
other list's persisted task positions also remain dense — except only the
source list of a cross-list move, which the engine does not re-persist and
which may retain a gap (see the counterexample). -/
theorem c2_amended_density (board : Board) (db : DB) (hc : Corresponds board db) :
    (∀ (s d : Nat) (b' : Board) (ws : List Write),
      s < board.length →
      onDragEndList board s d = some (b', ws) →
      Dense (listPositions (applyWrites db ws)) ∧
      (∀ l ∈ board, Dense (taskPositions (applyWrites db ws) l.id)) ∧
      (applyWrites db ws).tasks = db.tasks) ∧
    (∀ (source dest : DragLoc) (sourceList destList : TaskList) (b' : Board)
        (ws : List Write),
      board.find? (fun l => l.id == source.droppableId) = some sourceList →
      board.find? (fun l => l.id == dest.droppableId) = some destList →
      source.index < sourceList.tasks.length →
      onDragEndTask board source dest = some (b', ws) →
      Dense (taskPositions (applyWrites db ws) destList.id) ∧
      (∀ l ∈ board, (sourceList.id ≠ destList.id → l.id ≠ sourceList.id) →
        Dense (taskPositions (applyWrites db ws) l.id)) ∧
      Dense (listPositions (applyWrites db ws)) ∧
      (applyWrites db ws).task_lists = db.task_lists) := by
  have hrowIdsPerm : List.Perm (db.tasks.map TaskRow.id) (boardTaskIds board) := by
    have h := hc.tasks_perm.map TaskRow.id
    rwa [boardTaskRows_map_id] at h
  have hndrows : (db.tasks.map TaskRow.id).Nodup :=
    hrowIdsPerm.nodup_iff.mpr hc.taskIds_nodup
  have hlistRowIdsPerm : List.Perm (db.task_lists.map ListRow.id) (listIds board) := by
    have h := hc.lists_perm.map ListRow.id
    rwa [listRowsOf_map_id] at h
  constructor
  · intro s d b' ws hs heq
    rw [onDragEndList_eq board s d hs] at heq
    have hpair := Option.some.inj heq
    have hws : ws = (spliceInsert (board.eraseIdx s) d (board.get ⟨s, hs⟩)).enum.map
        (fun p => Write.listPos p.2.id p.1) := (congrArg Prod.snd hpair).symm
    subst hws
    have hlsperm : List.Perm
        ((spliceInsert (board.eraseIdx s) d (board.get ⟨s, hs⟩)).map TaskList.id)
        (board.map TaskList.id) := by
      have h1 := (spliceInsert_perm (board.eraseIdx s) d (board.get ⟨s, hs⟩)).map
        TaskList.id
      have h2 := (perm_get_cons_eraseIdx board s hs).map TaskList.id
      simp only [List.map_cons] at h1 h2
      exact h1.trans h2.symm
    have hndls : ((spliceInsert (board.eraseIdx s) d (board.get ⟨s, hs⟩)).map
        TaskList.id).Nodup := hlsperm.nodup_iff.mpr hc.listIds_nodup
    have htasks : (applyWrites db
        ((spliceInsert (board.eraseIdx s) d (board.get ⟨s, hs⟩)).enum.map
          (fun p => Write.listPos p.2.id p.1))).tasks = db.tasks := by
      apply applyWrites_tasks_id
      intro w hw r
      obtain ⟨p, -, rfl⟩ := List.mem_map.mp hw
      rfl
    refine ⟨?_, ?_, htasks⟩
    · unfold listPositions
      rw [applyWrites_task_lists]
      exact dense_of_perm_range _ _
        (listPass_density db.task_lists _ hndls (hlistRowIdsPerm.trans hlsperm.symm))
    · intro l hl
      unfold taskPositions
      rw [htasks]
      exact corresponds_task_dense board db hc l hl
  · intro source dest sourceList destList b' ws hsf hdf hsi heq
    have hsmem : sourceList ∈ board := List.mem_of_find?_eq_some hsf
    have hdmem : destList ∈ board := List.mem_of_find?_eq_some hdf
    by_cases hid : sourceList.id = destList.id
    · have hdl : destList = sourceList := by
        have hsid := find?_id_eq _ _ _ hsf
        have hdid := find?_id_eq _ _ _ hdf
        have hdd : dest.droppableId = source.droppableId := by
          rw [← hdid, ← hid, hsid]
        rw [hdd] at hdf
        exact Option.some.inj (hdf.symm.trans hsf)
      subst hdl
      rw [onDragEndTask_eq_same board source dest destList destList hsf hdf rfl hsi]
        at heq
      have hpair := Option.some.inj heq
      have hws : ws = (spliceInsert (destList.tasks.eraseIdx source.index) dest.index
            (setTaskListId (destList.tasks.get ⟨source.index, hsi⟩)
              destList.id)).enum.map
          (fun p => Write.taskPos p.2.id p.1 destList.id) :=
        (congrArg Prod.snd hpair).symm
      subst hws
      have htsids : List.Perm
          ((spliceInsert (destList.tasks.eraseIdx source.index) dest.index
            (setTaskListId (destList.tasks.get ⟨source.index, hsi⟩)
              destList.id)).map Task.id)
          (destList.tasks.map Task.id) := by
        have h1 := spliceInsert_map_id_perm_cons (destList.tasks.eraseIdx source.index)
          dest.index
          (setTaskListId (destList.tasks.get ⟨source.index, hsi⟩) destList.id)
        have h2 := tasks_map_id_perm destList.tasks source.index hsi
        exact h1.trans h2.symm
      have hndts := htsids.nodup_iff.mpr
        (component_task_ids_nodup board hc.taskIds_nodup destList hdmem)
      have hlists : (applyWrites db
          ((spliceInsert (destList.tasks.eraseIdx source.index) dest.index
              (setTaskListId (destList.tasks.get ⟨source.index, hsi⟩)
                destList.id)).enum.map
            (fun p => Write.taskPos p.2.id p.1 destList.id))).task_lists =
          db.task_lists := by
        apply applyWrites_task_lists_id
        intro w hw r
        obtain ⟨p, -, rfl⟩ := List.mem_map.mp hw
        rfl
      have hdest : Dense (taskPositions (applyWrites db
          ((spliceInsert (destList.tasks.eraseIdx source.index) dest.index
              (setTaskListId (destList.tasks.get ⟨source.index, hsi⟩)
                destList.id)).enum.map
            (fun p => Write.taskPos p.2.id p.1 destList.id))) destList.id) := by
        unfold taskPositions
        rw [applyWrites_tasks]
        apply dense_of_perm_range _ _
        refine taskPass_density db.tasks _ destList.id hndrows hndts ?_ ?_
        · intro i hi
          have hmem := htsids.mem_iff.mp hi
          exact hrowIdsPerm.mem_iff.mpr
            (component_task_ids_sub board destList hdmem i hmem)
        · intro r hr hrl
          obtain ⟨l, hl, hfld, hmemid⟩ := mem_boardTaskRows_fields board r
            (hc.tasks_perm.mem_iff.mp hr)
          have hleq : l = destList := list_eq_of_id_eq board hc.listIds_nodup l
            destList hl hdmem (hfld.symm.trans hrl)
          apply htsids.mem_iff.mpr
          rw [← hleq]
          exact hmemid
      refine ⟨hdest, ?_, ?_, hlists⟩
      · intro l hl hcond
        by_cases hld : l.id = destList.id
        · rw [hld]
          exact hdest
        · have hA : ∀ r ∈ db.tasks,
              r.id ∈ ((spliceInsert (destList.tasks.eraseIdx source.index) dest.index
                (setTaskListId (destList.tasks.get ⟨source.index, hsi⟩)
                  destList.id)).map Task.id) →
              r.list_id ≠ l.id := by
            intro r hr hm
            obtain ⟨l', hl', hfld, hmemid⟩ := mem_boardTaskRows_fields board r
              (hc.tasks_perm.mem_iff.mp hr)
            have hmem2 : r.id ∈ destList.tasks.map Task.id := htsids.mem_iff.mp hm
            have hleq : l' = destList := lists_eq_of_shared_task_id board
              hc.taskIds_nodup l' destList hl' hdmem r.id hmemid hmem2
            rw [hfld, hleq]
            exact Ne.symm hld
          unfold taskPositions
          rw [applyWrites_tasks]
          rw [taskPass_untouched db.tasks
            (spliceInsert (destList.tasks.eraseIdx source.index) dest.index
              (setTaskListId (destList.tasks.get ⟨source.index, hsi⟩) destList.id))
            destList.id l.id hndts (Ne.symm hld) hA]
          exact corresponds_task_dense board db hc l hl
      · unfold listPositions
        rw [hlists]
        exact corresponds_list_dense board db hc
    · rw [onDragEndTask_eq_cross board source dest sourceList destList hsf hdf hid hsi]
        at heq
      have hpair := Option.some.inj heq
      have hws : ws = (spliceInsert destList.tasks dest.index
            (setTaskListId (sourceList.tasks.get ⟨source.index, hsi⟩)
              destList.id)).enum.map
          (fun p => Write.taskPos p.2.id p.1 destList.id) :=
        (congrArg Prod.snd hpair).symm
      subst hws
      have hlne : sourceList ≠ destList := fun e => hid (congrArg TaskList.id e)
      have hdisj := component_task_ids_disjoint board hc.taskIds_nodup sourceList destList
        hsmem hdmem hlne
      have htskmem : (sourceList.tasks.get ⟨source.index, hsi⟩).id ∈
          sourceList.tasks.map Task.id :=
        List.mem_map_of_mem _ (sourceList.tasks.get_mem _ _)
      have hnotin : (sourceList.tasks.get ⟨source.index, hsi⟩).id ∉
          destList.tasks.map Task.id := fun hmem => hdisj htskmem hmem
      have htsids : List.Perm
          ((spliceInsert destList.tasks dest.index
            (setTaskListId (sourceList.tasks.get ⟨source.index, hsi⟩)
              destList.id)).map Task.id)
          ((sourceList.tasks.get ⟨source.index, hsi⟩).id :: destList.tasks.map Task.id) :=
        spliceInsert_map_id_perm_cons destList.tasks dest.index _
      have hndts : ((spliceInsert destList.tasks dest.index
          (setTaskListId (sourceList.tasks.get ⟨source.index, hsi⟩)
            destList.id)).map Task.id).Nodup := by
        apply htsids.nodup_iff.mpr
        exact List.nodup_cons.mpr ⟨hnotin,
          component_task_ids_nodup board hc.taskIds_nodup destList hdmem⟩
      have hlists : (applyWrites db
          ((spliceInsert destList.tasks dest.index
              (setTaskListId (sourceList.tasks.get ⟨source.index, hsi⟩)
                destList.id)).enum.map
            (fun p => Write.taskPos p.2.id p.1 destList.id))).task_lists =
          db.task_lists := by
        apply applyWrites_task_lists_id
        intro w hw r
        obtain ⟨p, -, rfl⟩ := List.mem_map.mp hw
        rfl
      have hdest : Dense (taskPositions (applyWrites db
          ((spliceInsert destList.tasks dest.index
              (setTaskListId (sourceList.tasks.get ⟨source.index, hsi⟩)
                destList.id)).enum.map
            (fun p => Write.taskPos p.2.id p.1 destList.id))) destList.id) := by
        unfold taskPositions
        rw [applyWrites_tasks]
        apply dense_of_perm_range _ _
        refine taskPass_density db.tasks _ destList.id hndrows hndts ?_ ?_
        · intro i hi
          have hi' := htsids.mem_iff.mp hi
          have h2 : i ∈ boardTaskIds board := by
            rcases List.mem_cons.mp hi' with h | h
            · refine component_task_ids_sub board sourceList hsmem i ?_
              rw [h]
              exact htskmem
            · exact component_task_ids_sub board destList hdmem i h
          exact hrowIdsPerm.mem_iff.mpr h2
        · intro r hr hrl
          obtain ⟨l, hl, hfld, hmemid⟩ := mem_boardTaskRows_fields board r
            (hc.tasks_perm.mem_iff.mp hr)
          have hleq : l = destList := list_eq_of_id_eq board hc.listIds_nodup l
            destList hl hdmem (hfld.symm.trans hrl)
          apply htsids.mem_iff.mpr
          apply List.mem_cons_of_mem
          rw [← hleq]
          exact hmemid
      refine ⟨hdest, ?_, ?_, hlists⟩
      · intro l hl hcond
        have hlnes : l.id ≠ sourceList.id := hcond hid
        by_cases hld : l.id = destList.id
        · rw [hld]
          exact hdest
        · have hA : ∀ r ∈ db.tasks,
              r.id ∈ ((spliceInsert destList.tasks dest.index
                (setTaskListId (sourceList.tasks.get ⟨source.index, hsi⟩)
                  destList.id)).map Task.id) →
              r.list_id ≠ l.id := by
            intro r hr hm
            obtain ⟨l', hl', hfld, hmemid⟩ := mem_boardTaskRows_fields board r
              (hc.tasks_perm.mem_iff.mp hr)
            rcases List.mem_cons.mp (htsids.mem_iff.mp hm) with hhead | htail
            · have hi1 : r.id ∈ sourceList.tasks.map Task.id := by
                rw [hhead]
                exact htskmem
              have hleq : l' = sourceList := lists_eq_of_shared_task_id board
                hc.taskIds_nodup l' sourceList hl' hsmem r.id hmemid hi1
              rw [hfld, hleq]
              exact Ne.symm hlnes
            · have hleq : l' = destList := lists_eq_of_shared_task_id board
                hc.taskIds_nodup l' destList hl' hdmem r.id hmemid htail
              rw [hfld, hleq]
              exact Ne.symm hld
          unfold taskPositions
          rw [applyWrites_tasks]
          rw [taskPass_untouched db.tasks
            (spliceInsert destList.tasks dest.index
              (setTaskListId (sourceList.tasks.get ⟨source.index, hsi⟩) destList.id))
            destList.id l.id hndts (Ne.symm hld) hA]
          exact corresponds_task_dense board db hc l hl
      · unfold listPositions
        rw [hlists]
        exact corresponds_list_dense board db hc

theorem c2_source_gap_counterexample :
    Corresponds
        [⟨"A", "a", [⟨"t0", "x", "A"⟩, ⟨"t1", "x", "A"⟩, ⟨"t2", "x", "A"⟩]⟩,
         ⟨"B", "b", [⟨"u0", "x", "B"⟩, ⟨"u1", "x", "B"⟩]⟩]
        ⟨[⟨"A", "a", 0⟩, ⟨"B", "b", 1⟩],
         [⟨"t0", "x", "A", 0⟩, ⟨"t1", "x", "A", 1⟩, ⟨"t2", "x", "A", 2⟩,
          ⟨"u0", "x", "B", 0⟩, ⟨"u1", "x", "B", 1⟩]⟩ ∧
    Dense (taskPositions
      ⟨[⟨"A", "a", 0⟩, ⟨"B", "b", 1⟩],
       [⟨"t0", "x", "A", 0⟩, ⟨"t1", "x", "A", 1⟩, ⟨"t2", "x", "A", 2⟩,
        ⟨"u0", "x", "B", 0⟩, ⟨"u1", "x", "B", 1⟩]⟩ "A") ∧
    onDragEndTask
        [⟨"A", "a", [⟨"t0", "x", "A"⟩, ⟨"t1", "x", "A"⟩, ⟨"t2", "x", "A"⟩]⟩,
         ⟨"B", "b", [⟨"u0", "x", "B"⟩, ⟨"u1", "x", "B"⟩]⟩]
        ⟨"A", 1⟩ ⟨"B", 1⟩ =
      some ([⟨"A", "a", [⟨"t0", "x", "A"⟩, ⟨"t2", "x", "A"⟩]⟩,
             ⟨"B", "b", [⟨"u0", "x", "B"⟩, ⟨"t1", "x", "B"⟩, ⟨"u1", "x", "B"⟩]⟩],
        [Write.taskPos "u0" 0 "B", Write.taskPos "t1" 1 "B", Write.taskPos "u1" 2 "B"]) ∧
    taskPositions
        (applyWrites
          ⟨[⟨"A", "a", 0⟩, ⟨"B", "b", 1⟩],
           [⟨"t0", "x", "A", 0⟩, ⟨"t1", "x", "A", 1⟩, ⟨"t2", "x", "A", 2⟩,
            ⟨"u0", "x", "B", 0⟩, ⟨"u1", "x", "B", 1⟩]⟩
          [Write.taskPos "u0" 0 "B", Write.taskPos "t1" 1 "B", Write.taskPos "u1" 2 "B"])
        "A" = [0, 2] ∧
    ¬ Dense (taskPositions
        (applyWrites
          ⟨[⟨"A", "a", 0⟩, ⟨"B", "b", 1⟩],
           [⟨"t0", "x", "A", 0⟩, ⟨"t1", "x", "A", 1⟩, ⟨"t2", "x", "A", 2⟩,
            ⟨"u0", "x", "B", 0⟩, ⟨"u1", "x", "B", 1⟩]⟩
          [Write.taskPos "u0" 0 "B", Write.taskPos "t1" 1 "B", Write.taskPos "u1" 2 "B"])
        "A") := by
  refine ⟨⟨by decide, by decide, by decide, by decide⟩, ?_, by decide, by decide, ?_⟩
  · unfold Dense
    decide
  · unfold Dense
    decide

theorem c2_amended_witness :
    Dense (taskPositions
        (applyWrites
          ⟨[⟨"A", "a", 0⟩, ⟨"B", "b", 1⟩, ⟨"C", "c", 2⟩],
           [⟨"t0", "x", "A", 0⟩, ⟨"t1", "x", "A", 1⟩, ⟨"t2", "x", "A", 2⟩,
            ⟨"u0", "x", "B", 0⟩, ⟨"u1", "x", "B", 1⟩, ⟨"v0", "x", "C", 0⟩]⟩
          [Write.taskPos "u0" 0 "B", Write.taskPos "t1" 1 "B", Write.taskPos "u1" 2 "B"])
        "B") ∧
    Dense (taskPositions
        (applyWrites
          ⟨[⟨"A", "a", 0⟩, ⟨"B", "b", 1⟩, ⟨"C", "c", 2⟩],
           [⟨"t0", "x", "A", 0⟩, ⟨"t1", "x", "A", 1⟩, ⟨"t2", "x", "A", 2⟩,
            ⟨"u0", "x", "B", 0⟩, ⟨"u1", "x", "B", 1⟩, ⟨"v0", "x", "C", 0⟩]⟩
          [Write.taskPos "u0" 0 "B", Write.taskPos "t1" 1 "B", Write.taskPos "u1" 2 "B"])
        "C") ∧
    Dense (listPositions
        (applyWrites
          ⟨[⟨"A", "a", 0⟩, ⟨"B", "b", 1⟩, ⟨"C", "c", 2⟩],
           [⟨"t0", "x", "A", 0⟩, ⟨"t1", "x", "A", 1⟩, ⟨"t2", "x", "A", 2⟩,
            ⟨"u0", "x", "B", 0⟩, ⟨"u1", "x", "B", 1⟩, ⟨"v0", "x", "C", 0⟩]⟩
          [Write.taskPos "u0" 0 "B", Write.taskPos "t1" 1 "B", Write.taskPos "u1" 2 "B"])) ∧
    (applyWrites
        ⟨[⟨"A", "a", 0⟩, ⟨"B", "b", 1⟩, ⟨"C", "c", 2⟩],
         [⟨"t0", "x", "A", 0⟩, ⟨"t1", "x", "A", 1⟩, ⟨"t2", "x", "A", 2⟩,
          ⟨"u0", "x", "B", 0⟩, ⟨"u1", "x", "B", 1⟩, ⟨"v0", "x", "C", 0⟩]⟩
        [Write.taskPos "u0" 0 "B", Write.taskPos "t1" 1 "B", Write.taskPos "u1" 2 "B"]
      ).task_lists = [⟨"A", "a", 0⟩, ⟨"B", "b", 1⟩, ⟨"C", "c", 2⟩] := by
  have h := (c2_amended_density
    [⟨"A", "a", [⟨"t0", "x", "A"⟩, ⟨"t1", "x", "A"⟩, ⟨"t2", "x", "A"⟩]⟩,
     ⟨"B", "b", [⟨"u0", "x", "B"⟩, ⟨"u1", "x", "B"⟩]⟩,
     ⟨"C", "c", [⟨"v0", "x", "C"⟩]⟩]
    ⟨[⟨"A", "a", 0⟩, ⟨"B", "b", 1⟩, ⟨"C", "c", 2⟩],
     [⟨"t0", "x", "A", 0⟩, ⟨"t1", "x", "A", 1⟩, ⟨"t2", "x", "A", 2⟩,
      ⟨"u0", "x", "B", 0⟩, ⟨"u1", "x", "B", 1⟩, ⟨"v0", "x", "C", 0⟩]⟩
    ⟨by decide, by decide, by decide, by decide⟩).2
    ⟨"A", 1⟩ ⟨"B", 1⟩
    ⟨"A", "a", [⟨"t0", "x", "A"⟩, ⟨"t1", "x", "A"⟩, ⟨"t2", "x", "A"⟩]⟩
    ⟨"B", "b", [⟨"u0", "x", "B"⟩, ⟨"u1", "x", "B"⟩]⟩
    [⟨"A", "a", [⟨"t0", "x", "A"⟩, ⟨"t2", "x", "A"⟩]⟩,
     ⟨"B", "b", [⟨"u0", "x", "B"⟩, ⟨"t1", "x", "B"⟩, ⟨"u1", "x", "B"⟩]⟩,
     ⟨"C", "c", [⟨"v0", "x", "C"⟩]⟩]
    [Write.taskPos "u0" 0 "B", Write.taskPos "t1" 1 "B", Write.taskPos "u1" 2 "B"]
    (by decide) (by decide) (by decide) (by decide)
  exact ⟨h.1, h.2.1 ⟨"C", "c", [⟨"v0", "x", "C"⟩]⟩ (by decide) (fun _ => by decide),
    h.2.2.1, h.2.2.2⟩

end TaskBoardModel
